import Mathlib

/-!
Verification development for the `ResourceAllocationGraph` engine of
`deadlockdetect.py`: the graph store (processes, resources with
total/available counts, request and allocation edge dictionaries), the
work/finish deadlock-detection algorithm, the resolution guide, and the
JSON state export/import.

Modelling conventions (shallow embedding of the Python source):
* Python `int` is `Int` (unbounded).
* Python `dict` is an association list; insertion preserves the position of
  an existing key and appends a fresh key, exactly like CPython dicts.
  Key lookup takes the first matching entry (dicts never hold duplicate
  keys, and all stores built by the operations keep keys distinct).
* The `processes` `set` is a `List String`; its iteration order is the list
  order.  The detection loop is parameterised by that order.
* Edge-dictionary keys are `EKey`: a Python tuple `(process, resource)` is
  `EKey.pair`, while a plain string key (as produced by `json.loads` during
  `import_state`) is `EKey.str`.  `json.dumps` raises `TypeError` on a
  tuple key, which `export_state` reflects in its `Except` result.
* A Python method that can `raise` returns `Except PyError`; a returned
  `error` means the exception fired before any mutation (which matches the
  source: every `raise` precedes the first mutation of the method).
-/

set_option maxRecDepth 4000

namespace DeadlockDetect

/-- Error values raised by the Python source (`ValueError` with a message)
or by the `json` module (`TypeError` on non-string dict keys). -/
inductive PyError where
  | valueError (msg : String)
  | typeError (msg : String)
  deriving DecidableEq, Repr

instance {e a : Type} [DecidableEq e] [DecidableEq a] :
    DecidableEq (Except e a) := fun x y =>
  match x, y with
  | .ok u, .ok v =>
    if h : u = v then .isTrue (by rw [h]) else .isFalse (by simp [h])
  | .ok _, .error _ => .isFalse (by simp)
  | .error _, .ok _ => .isFalse (by simp)
  | .error u, .error v =>
    if h : u = v then .isTrue (by rw [h]) else .isFalse (by simp [h])

/-- Key of the `allocations` / `requests` dictionaries: either a Python
tuple `(process, resource)` (the only kind the mutation API creates) or a
raw string key (the kind `import_state` installs from parsed JSON). -/
inductive EKey where
  | pair (p r : String)
  | str (s : String)
  deriving DecidableEq, Repr

/-- The per-resource record `{'total': …, 'available': …}`. -/
structure ResInfo where
  total : Int
  available : Int
  deriving DecidableEq, Repr

/-- The `ResourceAllocationGraph` state. -/
structure RAG where
  processes : List String
  resources : List (String × ResInfo)
  allocations : List (EKey × Int)
  requests : List (EKey × Int)
  nextProcessId : Nat
  nextResourceId : Nat
  deriving DecidableEq, Repr

/-- `ResourceAllocationGraph.__init__`. -/
def emptyRAG : RAG :=
  { processes := [], resources := [], allocations := [], requests := [],
    nextProcessId := 1, nextResourceId := 1 }

/-- First-occurrence lookup in an association list (Python `d[k]` /
`d.get(k)`; dict keys are unique, so first occurrence is the entry). -/
def alookup {κ α : Type} [DecidableEq κ] (k : κ) : List (κ × α) → Option α
  | [] => none
  | e :: rest => if e.1 = k then some e.2 else alookup k rest

/-- `defaultdict(int)` increment `d[k] += c`: updates the first occurrence
in place, or appends `(k, c)` when the key is absent (the defaultdict
inserts the default `0` and then adds `c`). -/
def dictAdd {κ : Type} [DecidableEq κ] (k : κ) (c : Int) :
    List (κ × Int) → List (κ × Int)
  | [] => [(k, c)]
  | e :: rest => if e.1 = k then (e.1, e.2 + c) :: rest else e :: dictAdd k c rest

/-- `del d[k]`: removes the first occurrence of the key. -/
def dictErase {κ α : Type} [DecidableEq κ] (k : κ) :
    List (κ × α) → List (κ × α)
  | [] => []
  | e :: rest => if e.1 = k then rest else e :: dictErase k rest

/-- In-place update of the value stored at a key (`d[k]['available'] -= c`
style mutation); identity when the key is absent. -/
def dictModify {κ α : Type} [DecidableEq κ] (k : κ) (f : α → α) :
    List (κ × α) → List (κ × α)
  | [] => []
  | e :: rest => if e.1 = k then (e.1, f e.2) :: rest else e :: dictModify k f rest

/-- Resource-identifier list, in dict order (`self.resources` keys). -/
def RAG.resourceIds (g : RAG) : List String := g.resources.map Prod.fst

/-- `self.resources[r]['available']`, reading `0` when absent (only ever
used where the resource exists). -/
def RAG.availOf (g : RAG) (r : String) : Int :=
  match alookup r g.resources with
  | some i => i.available
  | none => 0

/-- `self.resources[r]['total']`, reading `0` when absent. -/
def RAG.totalOf (g : RAG) (r : String) : Int :=
  match alookup r g.resources with
  | some i => i.total
  | none => 0

/-- `self.allocations[(p, r)]` with the defaultdict default `0`. -/
def RAG.allocCount (g : RAG) (p r : String) : Int :=
  (alookup (EKey.pair p r) g.allocations).getD 0

/-- `self.requests[(p, r)]` with the defaultdict default `0`. -/
def RAG.reqCount (g : RAG) (p r : String) : Int :=
  (alookup (EKey.pair p r) g.requests).getD 0

/-- The `while f"{pfx}{next_id}" in taken: next_id += 1` scan of
`get_auto_process_name` / `get_auto_resource_name`.  The Python loop has no
fuel; it stops at the first free name, which always happens within
`taken.length + 1` candidates.  The fuel argument only makes the recursion
structural. -/
def scanName (pfx : String) (taken : List String) : Nat → Nat → Nat
  | next, 0 => next
  | next, fuel + 1 =>
    if (pfx ++ toString next) ∈ taken then scanName pfx taken (next + 1) fuel
    else next

/-- `get_auto_process_name`: returns the generated name together with the
value the persistent `next_process_id` counter is left at. -/
def get_auto_process_name (g : RAG) : String × Nat :=
  let n := scanName "P" g.processes g.nextProcessId (g.processes.length + 1)
  ("P" ++ toString n, n)

/-- `get_auto_resource_name`: returns the generated name together with the
value the persistent `next_resource_id` counter is left at. -/
def get_auto_resource_name (g : RAG) : String × Nat :=
  let n := scanName "R" g.resourceIds g.nextResourceId (g.resourceIds.length + 1)
  ("R" ++ toString n, n)

/-- `add_process`.  A `none` or empty-string argument is falsy in Python
and triggers auto-naming.  Returns the new identifier and the new store. -/
def add_process (g : RAG) (pid : Option String) : Except PyError (String × RAG) :=
  let auto := pid.getD "" = ""
  let name := if auto then (get_auto_process_name g).1 else pid.getD ""
  let g1 := if auto then { g with nextProcessId := (get_auto_process_name g).2 } else g
  if name ∈ g1.processes then
    .error (.valueError ("Process " ++ name ++ " already exists"))
  else
    .ok (name, { g1 with processes := g1.processes ++ [name] })

/-- `add_resource`.  No lower bound on `instances` is checked by the code. -/
def add_resource (g : RAG) (rid : Option String) (instances : Int) :
    Except PyError (String × RAG) :=
  let auto := rid.getD "" = ""
  let name := if auto then (get_auto_resource_name g).1 else rid.getD ""
  let g1 := if auto then { g with nextResourceId := (get_auto_resource_name g).2 } else g
  if name ∈ g1.resourceIds then
    .error (.valueError ("Resource " ++ name ++ " already exists"))
  else
    .ok (name, { g1 with resources :=
      g1.resources ++ [(name, { total := instances, available := instances })] })

/-- `add_request`. -/
def add_request (g : RAG) (process resource : String) (count : Int) :
    Except PyError RAG :=
  if process ∉ g.processes ∨ resource ∉ g.resourceIds then
    .error (.valueError "Invalid process or resource")
  else
    .ok { g with requests := dictAdd (EKey.pair process resource) count g.requests }

/-- `add_allocation`: validates both endpoints, then the capacity check
`count > available`, then mutates the edge and the availability. -/
def add_allocation (g : RAG) (process resource : String) (count : Int) :
    Except PyError RAG :=
  if process ∉ g.processes ∨ resource ∉ g.resourceIds then
    .error (.valueError "Invalid process or resource")
  else if g.availOf resource < count then
    .error (.valueError "Not enough instances available")
  else
    .ok { g with
      allocations := dictAdd (EKey.pair process resource) count g.allocations,
      resources := dictModify resource
        (fun i => { i with available := i.available - count }) g.resources }

/-- `remove_allocation`: no-op when the edge key is absent; otherwise
decrements the edge by `count`, increments `available` by `count`, and
deletes the edge entry when its value has dropped to `≤ 0`.  (The source
then reads `self.resources[resource]` unconditionally; an allocation key
always references an existing resource in every store the API builds, so
the `dictModify` identity-on-absent case is never exercised.) -/
def remove_allocation (g : RAG) (process resource : String) (count : Int) : RAG :=
  if (alookup (EKey.pair process resource) g.allocations).isSome then
    let al := dictAdd (EKey.pair process resource) (-count) g.allocations
    let res := dictModify resource
      (fun i => { i with available := i.available + count }) g.resources
    if (alookup (EKey.pair process resource) al).getD 0 ≤ 0 then
      { g with allocations := dictErase (EKey.pair process resource) al,
               resources := res }
    else
      { g with allocations := al, resources := res }
  else g

/-- `del self.rag.resources[r]` — the resource removal performed by the UI
layer (undo of `add_resource`, line 392 of the source). -/
def removeResourceEntry (g : RAG) (r : String) : RAG :=
  { g with resources := dictErase r g.resources }

/-! ## Detection engine

`detect_deadlock` first rebuilds nested `allocation` / `request` tables by
destructuring every edge key as a 2-tuple (`for (p, r), cnt in …`); a raw
string key would make that destructuring blow up, so the embedded function
guards on `wellKeyed` and returns `none` there.  On pair-keyed stores the
rebuilt nested tables agree with `allocCount` / `reqCount` lookups.  The
Python `for p in self.processes` iterates the set in a fixed (but
unspecified) order, so the embedding takes that order as a parameter. -/

/-- Every edge key is a `(process, resource)` tuple — true of every store
the mutation API builds, and required for `detect_deadlock`'s key
destructuring not to raise. -/
def RAG.wellKeyed (g : RAG) : Bool :=
  (g.allocations ++ g.requests).all fun e =>
    match e.1 with
    | EKey.pair _ _ => true
    | EKey.str _ => false

/-- Every request edge names an existing resource (part of the section-3
data model); without it the source's final involved-resources loop would
hit a `KeyError` on `work[r]`. -/
def RAG.reqKeysValid (g : RAG) : Bool :=
  g.requests.all fun e =>
    match e.1 with
    | EKey.pair _ r => decide (r ∈ g.resourceIds)
    | EKey.str _ => true

/-- Dict key insertion: a key access on a defaultdict appends the key if
absent and leaves the key list unchanged if present. -/
def keyInsert (r : String) (ks : List String) : List String :=
  if r ∈ ks then ks else ks ++ [r]

/-- The key list of the nested dict `request[p]` right after the build
`for (p, r), cnt in self.requests.items(): request[p][r] = cnt`: the
resources of `p`'s request entries, in dictionary order. -/
def origReqKeys (g : RAG) (p : String) : List String :=
  g.requests.filterMap fun e =>
    match e.1 with
    | EKey.pair q r => if q = p then some r else none
    | EKey.str _ => none

/-- The current key list of `request[p]`: the detection loop's touched-key
state `tch` records, per process, the key list as overwritten by scans;
a process with no recorded override still has its build-time keys. -/
def reqKeysOf (g : RAG) (tch : List (String × List String)) (p : String) :
    List String :=
  (alookup p tch).getD (origReqKeys g p)

/-- Dict write `d[k] = v`: updates the entry in place or appends it. -/
def dictSetD {α : Type} (k : String) (v : α) (l : List (String × α)) :
    List (String × α) :=
  if (alookup k l).isSome then dictModify k (fun _ => v) l else l ++ [(k, v)]

/-- The key side effect of evaluating
`all(request[p][r] <= work[r] for r in self.resources)`: each candidate
resource is looked up in the nested defaultdict (inserting its key) right
before its comparison, and the generator short-circuits after the first
failing comparison, so the keys touched are the work entries up to and
including the first failure. -/
def scanKeys (g : RAG) (p : String) :
    List (String × Int) → List String → List String
  | [], ks => ks
  | rw :: rest, ks =>
    if g.reqCount p rw.1 ≤ rw.2 then scanKeys g p rest (keyInsert rw.1 ks)
    else keyInsert rw.1 ks

/-- The resources one `all(...)` scan touches, in order: the work entries
up to and including the first failing one (all of them if none fails). -/
def scanPfx (g : RAG) (p : String) : List (String × Int) → List String
  | [] => []
  | rw :: rest =>
    if g.reqCount p rw.1 ≤ rw.2 then rw.1 :: scanPfx g p rest else [rw.1]

/-- `l1` is an initial segment of `l2`. -/
def IsPre {α : Type} (l1 l2 : List α) : Prop := ∃ t, l1 ++ t = l2

/-- `work = {r: info['available'] for r, info in self.resources.items()}`. -/
def initWork (g : RAG) : List (String × Int) :=
  g.resources.map fun e => (e.1, e.2.available)

/-- `work[r]` dict lookup (every lookup in the algorithm is at an existing
key). -/
def workAt (w : List (String × Int)) (r : String) : Int :=
  (alookup r w).getD 0

/-- `all(request[p][r] <= work[r] for r in self.resources)` — the `work`
dict always has exactly the store's resources as keys. -/
def canFinish (g : RAG) (work : List (String × Int)) (p : String) : Bool :=
  work.all fun rw => decide (g.reqCount p rw.1 ≤ rw.2)

/-- `for r in self.resources: work[r] += allocation[p][r]`. -/
def addAllocBack (g : RAG) (p : String) (work : List (String × Int)) :
    List (String × Int) :=
  work.map fun rw => (rw.1, rw.2 + g.allocCount p rw.1)

/-- One `for p in self.processes` pass of the detection loop: `fin` is the
list of processes with `finish[p] == True` (in the order they finished),
`found` the pass's progress flag, and `tch` the touched-key state of the
nested `request` defaultdict.  Whenever an unfinished process is scanned,
the `all(...)` evaluation touches keys (recorded through `scanKeys`)
whether or not the process finishes. -/
def detectPass (g : RAG) :
    List String → List (String × Int) → List String → Bool →
    List (String × List String) →
    List (String × Int) × List String × Bool × List (String × List String)
  | [], work, fin, found, tch => (work, fin, found, tch)
  | p :: ps, work, fin, found, tch =>
    if p ∈ fin then detectPass g ps work fin found tch
    else
      if canFinish g work p then
        detectPass g ps (addAllocBack g p work) (fin ++ [p]) true
          (dictSetD p (scanKeys g p work (reqKeysOf g tch p)) tch)
      else
        detectPass g ps work fin found
          (dictSetD p (scanKeys g p work (reqKeysOf g tch p)) tch)

/-- The `while True` loop: repeat passes until one makes no progress.  The
Python loop needs no fuel (each continuing pass finishes at least one
process); the fuel only makes the recursion structural, and
`order.length + 1` is enough for the loop to reach its fixed point. -/
def detectLoop (g : RAG) (order : List String) :
    Nat → List (String × Int) → List String → List (String × List String) →
    List (String × Int) × List String × List (String × List String)
  | 0, work, fin, tch => (work, fin, tch)
  | fuel + 1, work, fin, tch =>
    let t := detectPass g order work fin false tch
    if t.2.2.1 then detectLoop g order fuel t.1 t.2.1 t.2.2.2
    else (t.1, t.2.1, t.2.2.2)

/-- Final `(work, finish, touched keys)` state of the detection loop. -/
def detectWF (g : RAG) (order : List String) :
    List (String × Int) × List String × List (String × List String) :=
  detectLoop g order (order.length + 1) (initWork g) [] []

/-- `detect_deadlock`, parameterised by the set-iteration order of
`self.processes`; `none` models the exception that key destructuring
would raise on a store holding raw string edge keys.  The implicated
list of a deadlocked process iterates `for r in request[p]` — the keys
of the process's nested request dict as the scans left them — keeping
each `r` with `request[p][r] > work[r]` at the final work values. -/
def detect_deadlock (g : RAG) (order : List String) :
    Option (Bool × List String × List (String × List String)) :=
  if g.wellKeyed then
    let wf := detectWF g order
    let deadlocked := order.filter fun p => p ∉ wf.2.1
    let involved := deadlocked.map fun p =>
      (p, (reqKeysOf g wf.2.2 p).filter fun r =>
        decide (workAt wf.1 r < g.reqCount p r))
    some (decide (0 < deadlocked.length), deadlocked, involved)
  else none

/-! ## Resolution guide -/

/-- `involved_resources[p]` of the detection result (a `defaultdict(set)`:
absent process means the empty set). -/
def invOf (involved : List (String × List String)) (p : String) : List String :=
  (alookup p involved).getD []

/-- `deadlocked[0]` — the representative release target the guide picks. -/
def suggestionTarget (deadlocked : List String) : String :=
  deadlocked.headD ""

/-- The `(resource, count)` pairs behind the guide's step-2 lines:
`for r in involved_resources[deadlocked[0]]: if (deadlocked[0], r) in
self.allocations: count = self.allocations[(deadlocked[0], r)]`. -/
def releaseSuggestions (g : RAG) (d0 : String) (inv0 : List String) :
    List (String × Int) :=
  inv0.filterMap fun r =>
    match alookup (EKey.pair d0 r) g.allocations with
    | some c => some (r, c)
    | none => none

/-- The per-process summary line of the guide body. -/
def guideProcessLine (g : RAG) (involved : List (String × List String))
    (p : String) : String :=
  let reqs := (invOf involved p).map fun r =>
    r ++ " (" ++ toString (g.reqCount p r) ++ " requested)"
  let allocs := (g.resourceIds.filter fun r =>
      (alookup (EKey.pair p r) g.allocations).isSome).map fun r =>
    r ++ " (" ++ toString (g.allocCount p r) ++ " allocated)"
  "- " ++ p ++ ": Requests: " ++
    (if reqs.isEmpty then "None" else String.intercalate ", " reqs) ++
    ", Allocations: " ++
    (if allocs.isEmpty then "None" else String.intercalate ", " allocs) ++ "\n"

/-- `get_deadlock_resolution_guide`. -/
def get_deadlock_resolution_guide (g : RAG) (deadlocked : List String)
    (involved : List (String × List String)) : String :=
  match deadlocked with
  | [] => "No deadlock detected. The system is in a safe state."
  | d0 :: _ =>
    "Deadlock Resolution Guide:\n\n" ++
    "Deadlocked Processes: " ++ String.intercalate ", " deadlocked ++ "\n" ++
    "Involved Resources and Requests:\n" ++
    String.join (deadlocked.map (guideProcessLine g involved)) ++
    "\nHow to Resolve:\n" ++
    "1. Identify a process holding resources that others need.\n" ++
    "   - Suggestion: Release allocations from " ++
      suggestionTarget (d0 :: deadlocked.tail) ++ ".\n" ++
    "2. Release enough resources to break the cycle:\n" ++
    String.join ((releaseSuggestions g d0 (invOf involved d0)).map fun rc =>
      "   - Release " ++ toString rc.2 ++ " instance(s) of " ++ rc.1 ++
        " from " ++ d0 ++ " manually.\n") ++
    "3. Adjust requests or add resources as needed.\n"

/-! ## State export / import -/

/-- The parsed-JSON snapshot document with its four fields. -/
structure Snapshot where
  processes : List String
  resources : List (String × ResInfo)
  allocations : List (String × Int)
  requests : List (String × Int)
  deriving DecidableEq, Repr

/-- `json.dumps` key conversion: object keys must be strings; a tuple key
raises `TypeError`. -/
def jsonEdgeKey (k : EKey) : Except PyError String :=
  match k with
  | .str s => .ok s
  | .pair _ _ =>
    .error (.typeError "keys must be str, int, float, bool or None")

/-- Serialise an edge dictionary as a JSON object; fails on the first
non-string key, as `json.dumps` does. -/
def encodeEdges : List (EKey × Int) → Except PyError (List (String × Int))
  | [] => .ok []
  | e :: rest => do
    let s ← jsonEdgeKey e.1
    let tail ← encodeEdges rest
    .ok ((s, e.2) :: tail)

/-- `export_state`: `json.dumps` of the four collections.  The `processes`
list, the string-keyed `resources` dict and all the integer counts
serialise fine; the edge dictionaries are keyed by tuples. -/
def export_state (g : RAG) : Except PyError Snapshot := do
  let al ← encodeEdges g.allocations
  let rq ← encodeEdges g.requests
  .ok { processes := g.processes, resources := g.resources,
        allocations := al, requests := rq }

/-- `import_state` on a parsed snapshot: replaces the four collections with
whatever the document holds — no validation of any §3 invariant.  The
edge dictionaries come back keyed by the JSON object's *strings*
(`defaultdict(int, state["allocations"])`), not by tuples.  The
`next_process_id` / `next_resource_id` counters are untouched. -/
def import_state (g : RAG) (s : Snapshot) : RAG :=
  { g with
    processes := s.processes.dedup,
    resources := s.resources,
    allocations := s.allocations.map fun e => (EKey.str e.1, e.2),
    requests := s.requests.map fun e => (EKey.str e.1, e.2) }

/-! ## Operation algebra (for reachability statements) -/

/-- The five store mutations quantified over by the capacity-invariant
claim. -/
inductive Op where
  | addProcess (pid : Option String)
  | addResource (rid : Option String) (instances : Int)
  | addRequest (p r : String) (count : Int)
  | addAllocation (p r : String) (count : Int)
  | removeAllocation (p r : String) (count : Int)
  deriving DecidableEq, Repr

/-- Apply one operation; a raised exception leaves the store exactly as it
was (every `raise` in the source precedes the first mutation). -/
def applyOp (g : RAG) : Op → RAG
  | .addProcess pid =>
    match add_process g pid with
    | .ok x => x.2
    | .error _ => g
  | .addResource rid inst =>
    match add_resource g rid inst with
    | .ok x => x.2
    | .error _ => g
  | .addRequest p r c =>
    match add_request g p r c with
    | .ok g2 => g2
    | .error _ => g
  | .addAllocation p r c =>
    match add_allocation g p r c with
    | .ok g2 => g2
    | .error _ => g
  | .removeAllocation p r c => remove_allocation g p r c

/-- Fold a list of operations from the empty store. -/
def runOps (ops : List Op) : RAG := ops.foldl applyOp emptyRAG

/-- A `RemoveAllocation` call is tame when its count does not exceed the
currently allocated amount (calls on an absent edge are unrestricted:
the method no-ops there). -/
def safeRemoveB (g : RAG) (p r : String) (c : Int) : Bool :=
  match alookup (EKey.pair p r) g.allocations with
  | none => true
  | some a => decide (c ≤ a)

/-- The restriction the amended capacity claim places on an operation. -/
def SafeOp (g : RAG) : Op → Prop
  | .removeAllocation p r c => safeRemoveB g p r c = true
  | _ => True

instance (g : RAG) (op : Op) : Decidable (SafeOp g op) := by
  cases op <;> simp only [SafeOp] <;> infer_instance

/-- States reachable from the empty store by operation sequences whose
`RemoveAllocation` calls never exceed the currently allocated amount. -/
inductive ReachSafe : RAG → Prop where
  | empty : ReachSafe emptyRAG
  | step {g : RAG} (op : Op) : ReachSafe g → SafeOp g op → ReachSafe (applyOp g op)

/-- Sum of all allocation-dictionary entries for a given resource. -/
def allocSumFor (al : List (EKey × Int)) (r : String) : Int :=
  (al.filterMap fun e =>
    match e.1 with
    | EKey.pair _ r' => if r' = r then some e.2 else none
    | EKey.str _ => none).sum

/-- The capacity invariant in the claim's formulation: for every resource,
`available` plus the sum over all processes of the allocation count for
that (process, resource) pair equals `total`. -/
def PerProcCapacity (g : RAG) : Prop :=
  ∀ r ∈ g.resourceIds,
    g.availOf r + (g.processes.map fun p => g.allocCount p r).sum = g.totalOf r

instance (g : RAG) : Decidable (PerProcCapacity g) := by
  unfold PerProcCapacity
  infer_instance

/-- The internal store invariants the mutation proofs carry: distinct
identifiers, pair-shaped allocation keys over existing endpoints, and the
entry-sum form of the capacity equation. -/
structure StoreInv (g : RAG) : Prop where
  procNodup : g.processes.Nodup
  resNodup : g.resourceIds.Nodup
  allocKeysNodup : (g.allocations.map Prod.fst).Nodup
  allocValid : ∀ e ∈ g.allocations,
    ∃ p r, e.1 = EKey.pair p r ∧ p ∈ g.processes ∧ r ∈ g.resourceIds
  capacity : ∀ r ∈ g.resourceIds,
    g.availOf r + allocSumFor g.allocations r = g.totalOf r

/-! ## Detection: mathematical companion definitions -/

/-- The work vector determined by a finished set `F`: the initial
availability plus everything the finished processes gave back. -/
def wkOf (g : RAG) (F : List String) (r : String) : Int :=
  g.availOf r + (F.map fun p => g.allocCount p r).sum

/-- The work dictionary determined by a finished set. -/
def wkMap (g : RAG) (F : List String) : List (String × Int) :=
  g.resources.map fun e => (e.1, wkOf g F e.1)

/-- Process `p` can finish given finished set `F`: all its outstanding
requests fit in the corresponding work vector. -/
def CanFin (g : RAG) (F : List String) (p : String) : Prop :=
  ∀ r ∈ g.resourceIds, g.reqCount p r ≤ wkOf g F r

/-- `F` is a completion sequence: its processes can finish in list order,
each drawing only on the availability freed by its predecessors. -/
inductive CompSeq (g : RAG) : List String → Prop where
  | nil : CompSeq g []
  | snoc {F : List String} {p : String} :
      CompSeq g F → CanFin g F p → CompSeq g (F ++ [p])

/-- No process outside `F` can finish: `F` is a fixed point of the
detection loop over iteration domain `order`. -/
def ClosedSet (g : RAG) (order F : List String) : Prop :=
  ∀ p ∈ order, p ∉ F → ¬ CanFin g F p

/-- The touched-key invariant carried through the detection loop: each
process's current request-key list is its build-time key list followed by
the new keys of some initial segment of the scan the current work vector
would perform — the segment a past scan touched, still an initial segment
now because work only grows. -/
def TouchInv (g : RAG) (F : List String)
    (tch : List (String × List String)) : Prop :=
  ∀ p, ∃ P, IsPre P (scanPfx g p (wkMap g F)) ∧
    reqKeysOf g tch p
      = origReqKeys g p ++ P.filter (fun r => r ∉ origReqKeys g p)

/-! ## Concrete stores used by counterexamples and witnesses -/

/-- `P1` holding one instance of the one-instance resource `R1`, then an
over-sized release `RemoveAllocation(P1, R1, 2)`. -/
def c1BadOps : List Op :=
  [.addProcess (some "P1"), .addResource (some "R1") 1,
   .addAllocation "P1" "R1" 1, .removeAllocation "P1" "R1" 2]

/-- The same build-up without the over-sized release. -/
def c1GoodOps : List Op :=
  [.addProcess (some "P1"), .addResource (some "R1") 1,
   .addAllocation "P1" "R1" 1, .removeAllocation "P1" "R1" 1]

/-- The classic two-process circular-wait store: `P1` holds `R1` and wants
`R2`; `P2` holds `R2` and wants `R1`. -/
def cycleStore : RAG := runOps
  [.addProcess (some "P1"), .addProcess (some "P2"),
   .addResource (some "R1") 1, .addResource (some "R2") 1,
   .addAllocation "P1" "R1" 1, .addAllocation "P2" "R2" 1,
   .addRequest "P1" "R2" 1, .addRequest "P2" "R1" 1]

/-- Three auto-named resources (`R1`, `R2`, `R3`) with `R2` then removed
through the UI's resource deletion. -/
def c8Store : RAG :=
  removeResourceEntry
    (runOps [.addResource none 1, .addResource none 1, .addResource none 1]) "R2"

/-- A store with one granted allocation edge — the smallest store on which
`export_state` must serialise a tuple-keyed dictionary. -/
def c2Store : RAG := runOps
  [.addProcess (some "P1"), .addResource (some "R1") 1,
   .addAllocation "P1" "R1" 1]

/-- A snapshot whose allocation entries sum to `5` against a resource of
total `1` — the malformed input of §8 scenario 6. -/
def c3BadSnap : Snapshot :=
  { processes := ["P1"],
    resources := [("R1", { total := 1, available := 1 })],
    allocations := [("P1,R1", 5)],
    requests := [] }

/-- The identifier a node-creating call returned, if it succeeded. -/
def exName (e : Except PyError (String × RAG)) : Option String :=
  match e with
  | .ok x => some x.1
  | .error _ => none

/-- A store with `P1` holding one of two `R1` instances while requesting
two more: `P1` is deadlocked, `R1` implicated, and `P1` holds an
allocation of the implicated resource. -/
def c9Store : RAG := runOps
  [.addProcess (some "P1"), .addResource (some "R1") 2,
   .addAllocation "P1" "R1" 1, .addRequest "P1" "R1" 2]

/-- A store with one process and a one-instance resource, for exercising
`add_allocation` with a negative count. -/
def c10Store : RAG := runOps
  [.addProcess (some "P1"), .addResource (some "R1") 1]

/-! ## Association-list lemmas -/

theorem alookup_eq_none {κ α : Type} [DecidableEq κ] {k : κ} {l : List (κ × α)} :
    alookup k l = none ↔ k ∉ l.map Prod.fst := by
  induction l with
  | nil => simp [alookup]
  | cons e rest ih =>
    by_cases h : e.1 = k
    · simp [alookup, h]
    · simp [alookup, h, ih, Ne.symm h]

theorem alookup_mem {κ α : Type} [DecidableEq κ] {k : κ} {v : α}
    {l : List (κ × α)} (h : alookup k l = some v) : (k, v) ∈ l := by
  induction l with
  | nil => simp [alookup] at h
  | cons e rest ih =>
    by_cases he : e.1 = k
    · simp only [alookup, he, if_pos] at h
      cases h
      have hk : (k, e.2) = e := by rw [← he]
      rw [hk]
      exact List.mem_cons_self _ _
    · simp only [alookup, he, if_neg, not_false_iff] at h
      exact List.mem_cons_of_mem _ (ih h)

theorem alookup_append_some {κ α : Type} [DecidableEq κ] {k : κ} {v : α}
    {l₁ l₂ : List (κ × α)} (h : alookup k l₁ = some v) :
    alookup k (l₁ ++ l₂) = some v := by
  induction l₁ with
  | nil => simp [alookup] at h
  | cons e rest ih =>
    by_cases he : e.1 = k
    · simp only [alookup, he, if_pos] at h ⊢
      exact h
    · simp only [alookup, he, if_neg, not_false_iff, List.cons_append] at h ⊢
      exact ih h

theorem alookup_append_none {κ α : Type} [DecidableEq κ] {k : κ}
    {l₁ l₂ : List (κ × α)} (h : alookup k l₁ = none) :
    alookup k (l₁ ++ l₂) = alookup k l₂ := by
  induction l₁ with
  | nil => simp
  | cons e rest ih =>
    by_cases he : e.1 = k
    · simp [alookup, he] at h
    · simp only [alookup, he, if_neg, not_false_iff, List.cons_append] at h ⊢
      exact ih h

theorem alookup_dictAdd_self {κ : Type} [DecidableEq κ] (k : κ) (c : Int)
    (l : List (κ × Int)) :
    alookup k (dictAdd k c l) = some ((alookup k l).getD 0 + c) := by
  induction l with
  | nil => simp [alookup, dictAdd]
  | cons e rest ih =>
    by_cases he : e.1 = k
    · simp [alookup, dictAdd, he]
    · simp [alookup, dictAdd, he, ih]

theorem alookup_dictAdd_ne {κ : Type} [DecidableEq κ] {k k' : κ} (c : Int)
    (l : List (κ × Int)) (h : k' ≠ k) :
    alookup k' (dictAdd k c l) = alookup k' l := by
  induction l with
  | nil => simp [alookup, dictAdd, Ne.symm h]
  | cons e rest ih =>
    by_cases he : e.1 = k
    · simp [alookup, dictAdd, he, Ne.symm h]
    · by_cases he' : e.1 = k'
      · simp [alookup, dictAdd, he, he', h]
      · simp [alookup, dictAdd, he, he', ih]

theorem map_fst_dictAdd_mem {κ : Type} [DecidableEq κ] {k : κ} (c : Int)
    {l : List (κ × Int)} (h : k ∈ l.map Prod.fst) :
    (dictAdd k c l).map Prod.fst = l.map Prod.fst := by
  induction l with
  | nil => simp at h
  | cons e rest ih =>
    by_cases he : e.1 = k
    · simp [dictAdd, he]
    · simp only [List.map_cons, List.mem_cons] at h
      rcases h with h | h

      · exact absurd h.symm he
      · simp [dictAdd, he, ih h]

theorem map_fst_dictAdd_not_mem {κ : Type} [DecidableEq κ] {k : κ} (c : Int)
    {l : List (κ × Int)} (h : k ∉ l.map Prod.fst) :
    (dictAdd k c l).map Prod.fst = l.map Prod.fst ++ [k] := by
  induction l with
  | nil => simp [dictAdd]
  | cons e rest ih =>
    simp only [List.map_cons, List.mem_cons, not_or] at h
    have hne : ¬ e.1 = k := fun hh => h.1 hh.symm
    simp [dictAdd, hne, ih h.2]

theorem mem_dictAdd {κ : Type} [DecidableEq κ] {k : κ} {c : Int}
    {l : List (κ × Int)} {x : κ × Int} (h : x ∈ dictAdd k c l) :
    x ∈ l ∨ x.1 = k := by
  induction l with
  | nil =>
    simp only [dictAdd, List.mem_singleton] at h
    right
    rw [h]
  | cons e rest ih =>
    by_cases he : e.1 = k
    · simp only [dictAdd, he, if_pos, List.mem_cons] at h
      rcases h with h | h
      · right
        rw [h, ← he]
      · exact Or.inl (List.mem_cons_of_mem _ h)
    · simp only [dictAdd, he, if_neg, not_false_iff, List.mem_cons] at h
      rcases h with h | h
      · exact Or.inl (by simp [h])
      · rcases ih h with h' | h'
        · exact Or.inl (List.mem_cons_of_mem _ h')
        · exact Or.inr h'

theorem map_fst_dictModify {κ α : Type} [DecidableEq κ] (k : κ) (f : α → α)
    (l : List (κ × α)) : (dictModify k f l).map Prod.fst = l.map Prod.fst := by
  induction l with
  | nil => simp [dictModify]
  | cons e rest ih =>
    by_cases he : e.1 = k
    · simp [dictModify, he]
    · simp [dictModify, he, ih]

theorem alookup_dictModify_self {κ α : Type} [DecidableEq κ] (k : κ)
    (f : α → α) (l : List (κ × α)) :
    alookup k (dictModify k f l) = (alookup k l).map f := by
  induction l with
  | nil => simp [alookup, dictModify]
  | cons e rest ih =>
    by_cases he : e.1 = k
    · simp [alookup, dictModify, he]
    · simp [alookup, dictModify, he, ih]

theorem alookup_dictModify_ne {κ α : Type} [DecidableEq κ] {k k' : κ}
    (f : α → α) (l : List (κ × α)) (h : k' ≠ k) :
    alookup k' (dictModify k f l) = alookup k' l := by
  induction l with
  | nil => simp [alookup, dictModify]
  | cons e rest ih =>
    by_cases he : e.1 = k
    · simp [alookup, dictModify, he, Ne.symm h]
    · by_cases he' : e.1 = k'
      · simp [alookup, dictModify, he, he', h]
      · simp [alookup, dictModify, he, he', ih]

theorem mem_dictErase {κ α : Type} [DecidableEq κ] {k : κ}
    {l : List (κ × α)} {x : κ × α} (h : x ∈ dictErase k l) : x ∈ l := by
  induction l with
  | nil => simp [dictErase] at h
  | cons e rest ih =>
    by_cases he : e.1 = k
    · simp only [dictErase, he, if_pos] at h
      exact List.mem_cons_of_mem _ h
    · simp only [dictErase, he, if_neg, not_false_iff, List.mem_cons] at h
      rcases h with h | h
      · exact List.mem_cons.mpr (Or.inl h)
      · exact List.mem_cons_of_mem _ (ih h)

theorem map_fst_dictErase_sublist {κ α : Type} [DecidableEq κ] (k : κ)
    (l : List (κ × α)) :
    List.Sublist ((dictErase k l).map Prod.fst) (l.map Prod.fst) := by
  induction l with
  | nil => simp [dictErase]
  | cons e rest ih =>
    by_cases he : e.1 = k
    · simp only [dictErase, he, if_pos, List.map_cons]
      exact (List.sublist_cons_self _ _)
    · simp only [dictErase, he, if_neg, not_false_iff, List.map_cons]
      exact ih.cons₂ _

theorem alookup_dictErase_ne {κ α : Type} [DecidableEq κ] {k k' : κ}
    (l : List (κ × α)) (h : k' ≠ k) :
    alookup k' (dictErase k l) = alookup k' l := by
  induction l with
  | nil => simp [dictErase]
  | cons e rest ih =>
    by_cases he : e.1 = k
    · simp [alookup, dictErase, he, Ne.symm h]
    · by_cases he' : e.1 = k'
      · simp [alookup, dictErase, he, he', h]
      · simp [alookup, dictErase, he, he', ih]

/-! ## Sum lemmas for the capacity invariant -/

theorem allocSumFor_dictAdd (al : List (EKey × Int)) (p r0 r : String) (c : Int) :
    allocSumFor (dictAdd (EKey.pair p r0) c al) r
      = allocSumFor al r + (if r0 = r then c else 0) := by
  induction al with
  | nil => by_cases h : r0 = r <;> simp [allocSumFor, dictAdd, h]
  | cons e rest ih =>
    obtain ⟨k, v⟩ := e
    simp only [allocSumFor] at ih ⊢
    by_cases he : k = EKey.pair p r0
    · subst he
      by_cases h : r0 = r <;>
        simp [dictAdd, h, List.filterMap_cons] <;> ring
    · have hstep : dictAdd (EKey.pair p r0) c ((k, v) :: rest)
          = (k, v) :: dictAdd (EKey.pair p r0) c rest := by
        simp [dictAdd, he]
      rw [hstep]
      cases k with
      | pair q s =>
        by_cases hs : s = r <;>
          simp [List.filterMap_cons, hs, ih] <;> ring
      | str s => simp [List.filterMap_cons, ih]

theorem allocSumFor_dictErase (al : List (EKey × Int)) (p r0 r : String) :
    allocSumFor (dictErase (EKey.pair p r0) al) r
      = allocSumFor al r
        - (if r0 = r then (alookup (EKey.pair p r0) al).getD 0 else 0) := by
  induction al with
  | nil => by_cases h : r0 = r <;> simp [allocSumFor, dictErase, alookup, h]
  | cons e rest ih =>
    obtain ⟨k, v⟩ := e
    simp only [allocSumFor] at ih ⊢
    by_cases he : k = EKey.pair p r0
    · subst he
      by_cases h : r0 = r <;>
        simp [dictErase, alookup, h, List.filterMap_cons] <;> ring
    · have hstep : dictErase (EKey.pair p r0) ((k, v) :: rest)
          = (k, v) :: dictErase (EKey.pair p r0) rest := by
        simp [dictErase, he]
      have hlk : alookup (EKey.pair p r0) ((k, v) :: rest)
          = alookup (EKey.pair p r0) rest := by
        simp [alookup, he]
      rw [hstep, hlk]
      cases k with
      | pair q s =>
        by_cases hs : s = r <;>
          simp [List.filterMap_cons, hs, ih] <;> ring
      | str s => simp [List.filterMap_cons, ih]

theorem allocSumFor_eq_zero {al : List (EKey × Int)} {r : String}
    (h : ∀ e ∈ al, ∀ p, e.1 ≠ EKey.pair p r) : allocSumFor al r = 0 := by
  induction al with
  | nil => rfl
  | cons e rest ih =>
    obtain ⟨k, v⟩ := e
    have hrest := ih fun e he p => h e (List.mem_cons_of_mem _ he) p
    cases k with
    | pair q s =>
      have hs : s ≠ r := fun hs =>
        h (EKey.pair q s, v) (List.mem_cons_self _ _) q (by rw [hs])
      simpa [allocSumFor, hs, List.filterMap_cons] using hrest
    | str s => simpa [allocSumFor, List.filterMap_cons] using hrest

theorem sum_map_add {α : Type} (l : List α) (f h : α → Int) :
    (l.map fun x => f x + h x).sum = (l.map f).sum + (l.map h).sum := by
  induction l with
  | nil => simp
  | cons a rest ih =>
    simp only [List.map_cons, List.sum_cons, ih]
    ring

theorem sum_ite_single {l : List String} {a : String} (hnd : l.Nodup)
    (ha : a ∈ l) (v : Int) :
    (l.map fun p => if p = a then v else 0).sum = v := by
  induction l with
  | nil => simp at ha
  | cons b rest ih =>
    by_cases hb : b = a
    · subst hb
      have h0 : (rest.map fun p => if p = b then v else (0 : Int)).sum = 0 := by
        apply List.sum_eq_zero
        intro x hx
        rcases List.mem_map.mp hx with ⟨p, hp, hpe⟩
        have hpb : p ≠ b := fun he => (List.nodup_cons.mp hnd).1 (he ▸ hp)
        rw [← hpe, if_neg hpb]
      simp [h0]
    · rcases List.mem_cons.mp ha with h | h
      · exact absurd h.symm hb
      · have := ih (List.nodup_cons.mp hnd).2 h
        simp [hb, this]

theorem sum_allocCount_eq_allocSumFor (procs : List String) (r : String) :
    ∀ al : List (EKey × Int), (al.map Prod.fst).Nodup →
      (∀ e ∈ al, ∃ p0 r0, e.1 = EKey.pair p0 r0 ∧ p0 ∈ procs) →
      procs.Nodup →
      (procs.map fun p => (alookup (EKey.pair p r) al).getD 0).sum
        = allocSumFor al r := by
  intro al
  induction al with
  | nil =>
    intro _ _ _
    have : ∀ x ∈ procs.map fun p =>
        ((alookup (EKey.pair p r) ([] : List (EKey × Int))).getD 0), x = 0 := by
      intro x hx
      rcases List.mem_map.mp hx with ⟨p, _, hpe⟩
      simpa [alookup] using hpe.symm
    simp [allocSumFor, List.sum_eq_zero this]
  | cons e rest ih =>
    intro hnd hvalid hpn
    obtain ⟨k, v⟩ := e
    rcases hvalid (k, v) (List.mem_cons_self _ _) with ⟨p0, r0, hk, hp0⟩
    simp only at hk
    subst hk
    have hnd' : (EKey.pair p0 r0 :: rest.map Prod.fst).Nodup := by
      simpa using hnd
    have hkey : EKey.pair p0 r0 ∉ rest.map Prod.fst :=
      (List.nodup_cons.mp hnd').1
    have hndr : (rest.map Prod.fst).Nodup := (List.nodup_cons.mp hnd').2
    have hvr : ∀ e ∈ rest, ∃ p0 r0, e.1 = EKey.pair p0 r0 ∧ p0 ∈ procs :=
      fun e he => hvalid e (List.mem_cons_of_mem _ he)
    have hrest := ih hndr hvr hpn
    by_cases hr0 : r0 = r
    · subst hr0
      have hpoint : ∀ p ∈ procs,
          (alookup (EKey.pair p r0) ((EKey.pair p0 r0, v) :: rest)).getD 0
            = (if p = p0 then v else 0)
              + (alookup (EKey.pair p r0) rest).getD 0 := by
        intro p _
        by_cases hpp : p = p0
        · subst hpp
          have hnone : alookup (EKey.pair p r0) rest = none :=
            alookup_eq_none.mpr hkey
          simp [alookup, hnone]
        · have hp0p : p0 ≠ p := fun h => hpp h.symm
          have hne : ¬ (EKey.pair p0 r0 = EKey.pair p r0) := by simp [hp0p]
          simp [alookup, hne, hpp]
      rw [List.map_congr_left hpoint, sum_map_add,
        sum_ite_single hpn hp0 v, hrest]
      simp only [allocSumFor, List.filterMap_cons]
      simp
    · have hpoint : ∀ p ∈ procs,
          (alookup (EKey.pair p r) ((EKey.pair p0 r0, v) :: rest)).getD 0
            = (alookup (EKey.pair p r) rest).getD 0 := by
        intro p _
        have hne : ¬ (EKey.pair p0 r0 = EKey.pair p r) := by simp [hr0]
        simp [alookup, hne]
      rw [List.map_congr_left hpoint, hrest]
      simp [allocSumFor, List.filterMap_cons, hr0]

/-! ## Inversion lemmas for the mutation operations -/

theorem alookup_isSome_of_mem {κ α : Type} [DecidableEq κ] {k : κ}
    {l : List (κ × α)} (h : k ∈ l.map Prod.fst) :
    ∃ v, alookup k l = some v := by
  cases hv : alookup k l with
  | none => exact absurd (alookup_eq_none.mp hv) (by simp [h])
  | some v => exact ⟨v, rfl⟩

theorem add_process_ok_spec {g : RAG} {pid : Option String} {name : String}
    {g' : RAG} (h : add_process g pid = .ok (name, g')) :
    g'.processes = g.processes ++ [name] ∧ g'.resources = g.resources ∧
    g'.allocations = g.allocations ∧ g'.requests = g.requests ∧
    name ∉ g.processes := by
  by_cases hauto : pid.getD "" = "" <;>
    simp only [add_process, hauto, if_pos, if_neg, ite_true, ite_false] at h <;>
    split at h <;> simp_all <;>
    (obtain ⟨h1, h2⟩ := h; subst h2; simp [← h1])

theorem add_resource_ok_spec {g : RAG} {rid : Option String} {inst : Int}
    {name : String} {g' : RAG} (h : add_resource g rid inst = .ok (name, g')) :
    g'.processes = g.processes ∧
    g'.resources = g.resources ++ [(name, { total := inst, available := inst })] ∧
    g'.allocations = g.allocations ∧ g'.requests = g.requests ∧
    name ∉ g.resourceIds := by
  by_cases hauto : rid.getD "" = "" <;>
    simp only [add_resource, hauto, if_pos, if_neg, ite_true, ite_false] at h <;>
    split at h <;> simp_all [RAG.resourceIds] <;>
    (obtain ⟨h1, h2⟩ := h; subst h2; simp [← h1])

theorem add_request_ok_spec {g : RAG} {p r : String} {c : Int} {g' : RAG}
    (h : add_request g p r c = .ok g') :
    g' = { g with requests := dictAdd (EKey.pair p r) c g.requests } ∧
    p ∈ g.processes ∧ r ∈ g.resourceIds := by
  simp only [add_request] at h
  split at h
  · simp at h
  · rename_i hcond
    push_neg at hcond
    cases h
    exact ⟨rfl, hcond.1, hcond.2⟩

theorem add_allocation_ok_spec {g : RAG} {p r : String} {c : Int} {g' : RAG}
    (h : add_allocation g p r c = .ok g') :
    g' = { g with
      allocations := dictAdd (EKey.pair p r) c g.allocations,
      resources := dictModify r
        (fun i => { i with available := i.available - c }) g.resources } ∧
    p ∈ g.processes ∧ r ∈ g.resourceIds ∧ c ≤ g.availOf r := by
  simp only [add_allocation] at h
  split at h
  · simp at h
  · split at h
    · simp at h
    · rename_i h1 h2
      push_neg at h1
      cases h
      exact ⟨rfl, h1.1, h1.2, not_lt.mp h2⟩

/-! ## Preservation of the store invariants -/

theorem storeInv_empty : StoreInv emptyRAG := by
  constructor <;> simp [emptyRAG, RAG.resourceIds, allocSumFor]

theorem storeInv_add_process {g : RAG} {pid : Option String} {name : String}
    {g' : RAG} (hinv : StoreInv g) (h : add_process g pid = .ok (name, g')) :
    StoreInv g' := by
  obtain ⟨hp, hr, ha, hq, hfresh⟩ := add_process_ok_spec h
  constructor
  · rw [hp]
    exact List.nodup_append.mpr ⟨hinv.procNodup, List.nodup_singleton _,
      by simpa [List.disjoint_singleton] using hfresh⟩
  · rw [RAG.resourceIds, hr]
    exact hinv.resNodup
  · rw [ha]
    exact hinv.allocKeysNodup
  · intro e he
    rw [ha] at he
    rcases hinv.allocValid e he with ⟨p0, r0, hk, hpm, hrm⟩
    exact ⟨p0, r0, hk, by rw [hp]; exact List.mem_append_left _ hpm,
      by rw [RAG.resourceIds, hr]; exact hrm⟩
  · intro r0 hr0
    rw [RAG.resourceIds, hr] at hr0
    have := hinv.capacity r0 hr0
    rw [RAG.availOf, RAG.totalOf, hr, ha]
    rw [RAG.availOf, RAG.totalOf] at this
    exact this

theorem storeInv_add_resource {g : RAG} {rid : Option String} {inst : Int}
    {name : String} {g' : RAG} (hinv : StoreInv g)
    (h : add_resource g rid inst = .ok (name, g')) : StoreInv g' := by
  obtain ⟨hp, hr, ha, hq, hfresh⟩ := add_resource_ok_spec h
  have hids : g'.resourceIds = g.resourceIds ++ [name] := by
    rw [RAG.resourceIds, hr]
    simp [RAG.resourceIds]
  constructor
  · rw [hp]
    exact hinv.procNodup
  · rw [hids]
    exact List.nodup_append.mpr ⟨hinv.resNodup, List.nodup_singleton _,
      by simpa [List.disjoint_singleton] using hfresh⟩
  · rw [ha]
    exact hinv.allocKeysNodup
  · intro e he
    rw [ha] at he
    rcases hinv.allocValid e he with ⟨p0, r0, hk, hpm, hrm⟩
    exact ⟨p0, r0, hk, by rw [hp]; exact hpm,
      by rw [hids]; exact List.mem_append_left _ hrm⟩
  · intro r0 hr0
    rw [hids] at hr0
    rcases List.mem_append.mp hr0 with hold | hnew
    · rcases alookup_isSome_of_mem hold with ⟨i, hi⟩
      have hcap := hinv.capacity r0 hold
      simp only [RAG.availOf, RAG.totalOf, hi] at hcap
      simp only [RAG.availOf, RAG.totalOf, hr, ha, alookup_append_some hi]
      exact hcap
    · have hname : r0 = name := by simpa using hnew
      subst hname
      have hnone : alookup r0 g.resources = none :=
        alookup_eq_none.mpr hfresh
      have hsum : allocSumFor g.allocations r0 = 0 := by
        apply allocSumFor_eq_zero
        intro e he p0 hk
        rcases hinv.allocValid e he with ⟨p1, r1, hk1, _, hrm⟩
        rw [hk1] at hk
        cases hk
        exact hfresh hrm
      simp only [RAG.availOf, RAG.totalOf, hr, ha,
        alookup_append_none hnone, hsum, alookup]
      simp

theorem storeInv_add_request {g : RAG} {p r : String} {c : Int} {g' : RAG}
    (hinv : StoreInv g) (h : add_request g p r c = .ok g') : StoreInv g' := by
  obtain ⟨hg, _, _⟩ := add_request_ok_spec h
  subst hg
  exact ⟨hinv.procNodup, hinv.resNodup, hinv.allocKeysNodup,
    hinv.allocValid, hinv.capacity⟩

theorem storeInv_add_allocation {g : RAG} {p r : String} {c : Int} {g' : RAG}
    (hinv : StoreInv g) (h : add_allocation g p r c = .ok g') : StoreInv g' := by
  obtain ⟨hg, hpm, hrm, _⟩ := add_allocation_ok_spec h
  subst hg
  have hids : (dictModify r
      (fun i => { i with available := i.available - c }) g.resources).map
        Prod.fst = g.resourceIds :=
    map_fst_dictModify _ _ _
  constructor
  · exact hinv.procNodup
  · rw [RAG.resourceIds]
    simp only [hids]
    exact hinv.resNodup
  · by_cases hk : EKey.pair p r ∈ g.allocations.map Prod.fst
    · simp only [map_fst_dictAdd_mem c hk]
      exact hinv.allocKeysNodup
    · simp only [map_fst_dictAdd_not_mem c hk]
      exact List.nodup_append.mpr ⟨hinv.allocKeysNodup, List.nodup_singleton _,
        by simpa [List.disjoint_singleton] using hk⟩
  · intro e he
    rcases mem_dictAdd he with hold | hkey
    · rcases hinv.allocValid e hold with ⟨p0, r0, hk, hpm0, hrm0⟩
      refine ⟨p0, r0, hk, hpm0, ?_⟩
      rw [RAG.resourceIds]
      simp only [hids]
      exact hrm0
    · refine ⟨p, r, hkey, hpm, ?_⟩
      rw [RAG.resourceIds]
      simp only [hids]
      exact hrm
  · intro r0 hr0
    rw [RAG.resourceIds] at hr0
    simp only [hids] at hr0
    have hcap := hinv.capacity r0 hr0
    simp only [RAG.availOf, RAG.totalOf] at hcap ⊢
    rw [allocSumFor_dictAdd]
    by_cases hrr : r0 = r
    · subst hrr
      rcases alookup_isSome_of_mem hr0 with ⟨i, hi⟩
      rw [alookup_dictModify_self, hi]
      rw [hi] at hcap
      simp at hcap ⊢
      omega
    · rw [alookup_dictModify_ne _ _ hrr]
      simp only [if_neg (fun hh : r = r0 => hrr hh.symm)]
      omega

theorem storeInv_remove_allocation {g : RAG} (p r : String) (c : Int)
    (hinv : StoreInv g) (hsafe : safeRemoveB g p r c = true) :
    StoreInv (remove_allocation g p r c) := by
  cases hke : alookup (EKey.pair p r) g.allocations with
  | none =>
    simp only [remove_allocation, hke, Option.isSome_none, Bool.false_eq_true,
      if_false]
    exact hinv
  | some a =>
    have hca : c ≤ a := by
      simpa [safeRemoveB, hke] using hsafe
    have hmem : (EKey.pair p r, a) ∈ g.allocations := alookup_mem hke
    have hpr : p ∈ g.processes ∧ r ∈ g.resourceIds := by
      rcases hinv.allocValid _ hmem with ⟨p1, r1, hk1, hpm, hrm⟩
      simp only [EKey.pair.injEq] at hk1
      rcases hk1 with ⟨hp1, hr1⟩
      subst hp1
      subst hr1
      exact ⟨hpm, hrm⟩
    have hlkAdd : alookup (EKey.pair p r)
        (dictAdd (EKey.pair p r) (-c) g.allocations) = some (a + -c) := by
      rw [alookup_dictAdd_self, hke]
      rfl
    have hids : (dictModify r
        (fun i => { i with available := i.available + c }) g.resources).map
          Prod.fst = g.resourceIds :=
      map_fst_dictModify _ _ _
    have hkeysAdd : (dictAdd (EKey.pair p r) (-c) g.allocations).map Prod.fst
        = g.allocations.map Prod.fst := by
      apply map_fst_dictAdd_mem
      exact List.mem_map.mpr ⟨_, hmem, rfl⟩
    have hres : remove_allocation g p r c =
        if a + -c ≤ 0 then
          { g with
            allocations :=
              dictErase (EKey.pair p r) (dictAdd (EKey.pair p r) (-c) g.allocations),
            resources := dictModify r
              (fun i => { i with available := i.available + c }) g.resources }
        else
          { g with
            allocations := dictAdd (EKey.pair p r) (-c) g.allocations,
            resources := dictModify r
              (fun i => { i with available := i.available + c }) g.resources } := by
      simp [remove_allocation, hke, hlkAdd]
    rw [hres]
    by_cases hz : a + -c ≤ 0
    · rw [if_pos hz]
      constructor
      · exact hinv.procNodup
      · rw [RAG.resourceIds]
        simp only [hids]
        exact hinv.resNodup
      · exact List.Nodup.sublist
          (map_fst_dictErase_sublist _ _)
          (by rw [hkeysAdd]; exact hinv.allocKeysNodup)
      · intro e he
        have he2 := mem_dictErase he
        rcases mem_dictAdd he2 with hold | hkey
        · rcases hinv.allocValid e hold with ⟨p0, r0, hk, hpm0, hrm0⟩
          refine ⟨p0, r0, hk, hpm0, ?_⟩
          rw [RAG.resourceIds]
          simp only [hids]
          exact hrm0
        · refine ⟨p, r, hkey, hpr.1, ?_⟩
          rw [RAG.resourceIds]
          simp only [hids]
          exact hpr.2
      · intro r0 hr0
        rw [RAG.resourceIds] at hr0
        simp only [hids] at hr0
        have hcap := hinv.capacity r0 hr0
        simp only [RAG.availOf, RAG.totalOf] at hcap ⊢
        rw [allocSumFor_dictErase, allocSumFor_dictAdd, hlkAdd]
        by_cases hrr : r0 = r
        · subst hrr
          rcases alookup_isSome_of_mem hr0 with ⟨i, hi⟩
          rw [alookup_dictModify_self, hi]
          rw [hi] at hcap
          simp at hcap ⊢
          omega
        · rw [alookup_dictModify_ne _ _ hrr]
          simp only [if_neg (fun hh : r = r0 => hrr hh.symm)]
          omega
    · rw [if_neg hz]
      constructor
      · exact hinv.procNodup
      · rw [RAG.resourceIds]
        simp only [hids]
        exact hinv.resNodup
      · rw [hkeysAdd]
        exact hinv.allocKeysNodup
      · intro e he
        rcases mem_dictAdd he with hold | hkey
        · rcases hinv.allocValid e hold with ⟨p0, r0, hk, hpm0, hrm0⟩
          refine ⟨p0, r0, hk, hpm0, ?_⟩
          rw [RAG.resourceIds]
          simp only [hids]
          exact hrm0
        · refine ⟨p, r, hkey, hpr.1, ?_⟩
          rw [RAG.resourceIds]
          simp only [hids]
          exact hpr.2
      · intro r0 hr0
        rw [RAG.resourceIds] at hr0
        simp only [hids] at hr0
        have hcap := hinv.capacity r0 hr0
        simp only [RAG.availOf, RAG.totalOf] at hcap ⊢
        rw [allocSumFor_dictAdd]
        by_cases hrr : r0 = r
        · subst hrr
          rcases alookup_isSome_of_mem hr0 with ⟨i, hi⟩
          rw [alookup_dictModify_self, hi]
          rw [hi] at hcap
          simp at hcap ⊢
          omega
        · rw [alookup_dictModify_ne _ _ hrr]
          simp only [if_neg (fun hh : r = r0 => hrr hh.symm)]
          omega

theorem storeInv_applyOp {g : RAG} (hinv : StoreInv g) (op : Op)
    (hs : SafeOp g op) : StoreInv (applyOp g op) := by
  cases op with
  | addProcess pid =>
    simp only [applyOp]
    cases hap : add_process g pid with
    | error e => exact hinv
    | ok x => exact storeInv_add_process hinv (by rw [hap])
  | addResource rid inst =>
    simp only [applyOp]
    cases hap : add_resource g rid inst with
    | error e => exact hinv
    | ok x => exact storeInv_add_resource hinv (by rw [hap])
  | addRequest p r c =>
    simp only [applyOp]
    cases hap : add_request g p r c with
    | error e => exact hinv
    | ok g2 => exact storeInv_add_request hinv hap
  | addAllocation p r c =>
    simp only [applyOp]
    cases hap : add_allocation g p r c with
    | error e => exact hinv
    | ok g2 => exact storeInv_add_allocation hinv hap
  | removeAllocation p r c =>
    exact storeInv_remove_allocation p r c hinv hs

theorem storeInv_reachSafe {g : RAG} (h : ReachSafe g) : StoreInv g := by
  induction h with
  | empty => exact storeInv_empty
  | step op _ hs ih => exact storeInv_applyOp ih op hs

/-! ## Claim C1: the capacity invariant -/

theorem perProcCapacity_of_storeInv {g : RAG} (h : StoreInv g) :
    PerProcCapacity g := by
  intro r hr
  have hsum := sum_allocCount_eq_allocSumFor g.processes r g.allocations
    h.allocKeysNodup
    (fun e he => by
      rcases h.allocValid e he with ⟨p0, r0, hk, hp, _⟩
      exact ⟨p0, r0, hk, hp⟩)
    h.procNodup
  have hcap := h.capacity r hr
  simp only [RAG.allocCount]
  rw [hsum]
  exact hcap

/-- Claim C1, counterexample: the capacity invariant does not survive a
`RemoveAllocation` whose count exceeds the currently allocated amount.
After `AddProcess(P1)`, `AddResource(R1, 1)`, `AddAllocation(P1, R1, 1)`,
`RemoveAllocation(P1, R1, 2)` — a store reachable by the claim's five
operations — resource `R1` has `available = 2`, no allocation entries, and
`total = 1`, so `available + sum of allocations ≠ total`. -/
theorem claim_C1_counterexample : ¬ PerProcCapacity (runOps c1BadOps) := by
  decide

/-- Claim C1, amended: for every store reachable from the empty store by
`AddProcess`, `AddResource`, `AddRequest`, `AddAllocation` and
`RemoveAllocation` operations in which every `RemoveAllocation` call's
count is at most the currently allocated amount for its edge (calls on an
absent edge are unrestricted no-ops), every resource satisfies
`available + sum over processes of the allocation count = total` after
every mutation.  Without that bound on `RemoveAllocation` the invariant
fails. -/
theorem claim_C1_capacity (g : RAG) (h : ReachSafe g) : PerProcCapacity g :=
  perProcCapacity_of_storeInv (storeInv_reachSafe h)

/-- Witness for C1: the amended theorem applied to the concrete reachable
store that allocates one instance of `R1` to `P1` and releases exactly
one. -/
theorem claim_C1_capacity_witness : PerProcCapacity (runOps c1GoodOps) := by
  apply claim_C1_capacity
  show ReachSafe (runOps c1GoodOps)
  have h0 : ReachSafe emptyRAG := ReachSafe.empty
  have h1 := h0.step (Op.addProcess (some "P1")) (by decide)
  have h2 := h1.step (Op.addResource (some "R1") 1) (by decide)
  have h3 := h2.step (Op.addAllocation "P1" "R1" 1) (by decide)
  have h4 := h3.step (Op.removeAllocation "P1" "R1" 1) (by decide)
  exact h4

/-! ## Claims C2 and C3: state export / import -/

/-- Claim C2 (code bug): `ExportState` does not return a serialized
snapshot for stores with an edge.  On the store where `P1` holds one
instance of `R1`, the `allocations` dictionary is keyed by the tuple
`(P1, R1)`, and `json.dumps` raises `TypeError` on a non-string object
key, so `export_state` fails — the round trip never starts. -/
theorem claim_C2_export_raises :
    export_state c2Store
      = .error (.typeError "keys must be str, int, float, bool or None") ∧
    c2Store.allocations ≠ [] := by
  decide

/-- Claim C3 (code bug): `ImportState` performs no validation.  The
snapshot `c3BadSnap` has allocation entries summing to `5` against a
resource of total `1`, yet `import_state` raises nothing, replaces the
store (the result differs from the pre-import empty store), and keeps the
oversized allocation entry verbatim under its raw JSON string key. -/
theorem claim_C3_import_no_validation :
    (c3BadSnap.allocations.map Prod.snd).sum = 5 ∧
    (import_state emptyRAG c3BadSnap).totalOf "R1" = 1 ∧
    import_state emptyRAG c3BadSnap ≠ emptyRAG ∧
    (import_state emptyRAG c3BadSnap).allocations
      = [(EKey.str "P1,R1", 5)] := by
  decide

/-! ## Claims C4 and C10: `add_allocation` error behaviour -/

/-- Claim C4: when both endpoints exist and the requested count exceeds
the resource's current `available`, `add_allocation` fails with the
insufficient-instances error (and, the store being mutated only after
both checks, is left unchanged); moreover a successful call never drives
a nonnegative `available` negative. -/
theorem claim_C4_insufficient (g : RAG) (p r : String) (c : Int)
    (hp : p ∈ g.processes) (hr : r ∈ g.resourceIds)
    (hc : g.availOf r < c) :
    add_allocation g p r c
      = .error (.valueError "Not enough instances available") ∧
    ∀ c' g', 0 ≤ g.availOf r → add_allocation g p r c' = .ok g' →
      0 ≤ g'.availOf r := by
  constructor
  · simp only [add_allocation]
    rw [if_neg (by push_neg; exact ⟨hp, hr⟩), if_pos hc]
  · intro c' g' h0 hok
    obtain ⟨hg, _, hrm, hcle⟩ := add_allocation_ok_spec hok
    subst hg
    rcases alookup_isSome_of_mem hrm with ⟨i, hi⟩
    simp only [RAG.availOf] at h0 hcle ⊢
    rw [alookup_dictModify_self, hi]
    rw [hi] at h0 hcle
    simp only [Option.map_some'] at *
    simp at *
    omega

/-- Witness for C4 at a concrete input: allocating `2` instances of the
one-instance resource `R1` fails with the insufficient-instances error,
and a successful allocation keeps `available` nonnegative. -/
theorem claim_C4_witness :
    add_allocation c10Store "P1" "R1" 2
      = .error (.valueError "Not enough instances available") :=
  (claim_C4_insufficient c10Store "P1" "R1" 2 (by decide) (by decide)
    (by decide)).1

/-- Claim C10: `add_allocation` raises exactly when an endpoint is
unknown or the count exceeds the current `available`; no lower bound on
the count is checked, a successful call adds the (possibly negative)
count to the allocation edge and subtracts it from `available`, and a
negative count can push `available` above `total`. -/
theorem claim_C10_no_lower_bound (g : RAG) (p r : String) (c : Int) :
    ((∃ e, add_allocation g p r c = .error e) ↔
      (p ∉ g.processes ∨ r ∉ g.resourceIds ∨ g.availOf r < c)) ∧
    (∀ g', add_allocation g p r c = .ok g' →
      g'.allocCount p r = g.allocCount p r + c ∧
      g'.availOf r = g.availOf r - c) ∧
    (∃ gneg, add_allocation c10Store "P1" "R1" (-3) = .ok gneg ∧
      gneg.totalOf "R1" < gneg.availOf "R1") := by
  refine ⟨?_, ?_, ?_⟩
  · simp only [add_allocation]
    by_cases h1 : p ∉ g.processes ∨ r ∉ g.resourceIds
    · rw [if_pos h1]
      constructor
      · intro _
        rcases h1 with h | h
        · exact Or.inl h
        · exact Or.inr (Or.inl h)
      · intro _
        exact ⟨_, rfl⟩
    · rw [if_neg h1]
      push_neg at h1
      by_cases h2 : g.availOf r < c
      · rw [if_pos h2]
        constructor
        · intro _
          exact Or.inr (Or.inr h2)
        · intro _
          exact ⟨_, rfl⟩
      · rw [if_neg h2]
        constructor
        · rintro ⟨e, he⟩
          simp at he
        · intro hor
          rcases hor with h | h | h
          · exact absurd h1.1 h
          · exact absurd h1.2 h
          · exact absurd h h2
  · intro g' hok
    obtain ⟨hg, _, hrm, _⟩ := add_allocation_ok_spec hok
    subst hg
    constructor
    · simp only [RAG.allocCount]
      rw [alookup_dictAdd_self]
      cases alookup (EKey.pair p r) g.allocations <;> rfl
    · rcases alookup_isSome_of_mem hrm with ⟨i, hi⟩
      simp only [RAG.availOf]
      rw [alookup_dictModify_self, hi]
      simp
  · exact ⟨(add_allocation c10Store "P1" "R1" (-3)).toOption.getD emptyRAG,
      by decide, by decide⟩

/-- Witness for C10 at a concrete input: a zero-count call on a valid
edge succeeds (no error is possible at count `0`). -/
theorem claim_C10_witness :
    ¬ (∃ e, add_allocation c10Store "P1" "R1" 0 = .error e) := by
  have h := (claim_C10_no_lower_bound c10Store "P1" "R1" 0).1
  intro hex
  have := h.mp hex
  revert this
  decide

/-! ## Claim C8: auto-generated identifiers -/

theorem scanName_spec (pfx : String) (taken : List String) :
    ∀ fuel next, (∃ k, k < fuel ∧ (pfx ++ toString (next + k)) ∉ taken) →
      next ≤ scanName pfx taken next fuel ∧
      (pfx ++ toString (scanName pfx taken next fuel)) ∉ taken ∧
      ∀ m, next ≤ m → m < scanName pfx taken next fuel →
        (pfx ++ toString m) ∈ taken := by
  intro fuel
  induction fuel with
  | zero =>
    rintro next ⟨k, hk, _⟩
    omega
  | succ fuel ih =>
    intro next hex
    by_cases hmem : (pfx ++ toString next) ∈ taken
    · have hex2 : ∃ k, k < fuel ∧ (pfx ++ toString (next + 1 + k)) ∉ taken := by
        rcases hex with ⟨k, hk, hfree⟩
        cases k with
        | zero => exact absurd hmem (by simpa using hfree)
        | succ k =>
          refine ⟨k, by omega, ?_⟩
          have harith : next + 1 + k = next + (k + 1) := by omega
          rw [harith]
          exact hfree
      have hrec := ih (next + 1) hex2
      simp only [scanName, if_pos hmem]
      refine ⟨by omega, hrec.2.1, ?_⟩
      intro m hm1 hm2
      by_cases hmn : m = next
      · subst hmn
        exact hmem
      · exact hrec.2.2 m (by omega) (by simpa [scanName, hmem] using hm2)
    · simp only [scanName, if_neg hmem]
      exact ⟨le_refl _, hmem, fun m hm1 hm2 => absurd hm2 (by omega)⟩

/-- Claim C8 (amended): the auto-generated identifier is the
lowest-numbered unused `P<n>` (resp. `R<n>`) *with `n` at least the
store's persistent next-id counter*, which advances as names are scanned
and never resets; it is not the globally lowest unused name, so after
auto-creating `R1`, `R2`, `R3` and removing `R2` the next auto resource
is `R4`, not `R2`.  (The hypotheses — a free index within the scan
bound — hold for every store, the candidate names being distinct and the
name sets finite.) -/
theorem claim_C8_auto_naming (g : RAG)
    (hexP : ∃ k, k < g.processes.length + 1 ∧
      ("P" ++ toString (g.nextProcessId + k)) ∉ g.processes)
    (hexR : ∃ k, k < g.resourceIds.length + 1 ∧
      ("R" ++ toString (g.nextResourceId + k)) ∉ g.resourceIds) :
    (∃ n, get_auto_process_name g = ("P" ++ toString n, n) ∧
      g.nextProcessId ≤ n ∧ ("P" ++ toString n) ∉ g.processes ∧
      ∀ m, g.nextProcessId ≤ m → m < n →
        ("P" ++ toString m) ∈ g.processes) ∧
    (∃ n, get_auto_resource_name g = ("R" ++ toString n, n) ∧
      g.nextResourceId ≤ n ∧ ("R" ++ toString n) ∉ g.resourceIds ∧
      ∀ m, g.nextResourceId ≤ m → m < n →
        ("R" ++ toString m) ∈ g.resourceIds) := by
  constructor
  · have h := scanName_spec "P" g.processes (g.processes.length + 1)
      g.nextProcessId hexP
    exact ⟨_, rfl, h.1, h.2.1, h.2.2⟩
  · have h := scanName_spec "R" g.resourceIds (g.resourceIds.length + 1)
      g.nextResourceId hexR
    exact ⟨_, rfl, h.1, h.2.1, h.2.2⟩

/-- Claim C8, counterexample: in the store obtained by three auto-named
`AddResource` calls (yielding `R1`, `R2`, `R3`) followed by the removal
of `R2`, the next auto-named `AddResource` returns `R4` even though the
lower-numbered `R2` is unused — refuting "lowest-numbered unused at the
time of the call". -/
theorem claim_C8_counterexample :
    exName (add_resource c8Store none 1) = some "R4" ∧
    "R2" ∉ c8Store.resourceIds := by
  decide

/-- Witness for C8: the amended characterisation applied to the concrete
post-removal store; the generated resource name is free and everything
from the counter up to it is taken. -/
theorem claim_C8_witness :
    ∃ n, get_auto_resource_name c8Store = ("R" ++ toString n, n) ∧
      c8Store.nextResourceId ≤ n ∧
      ("R" ++ toString n) ∉ c8Store.resourceIds ∧
      ∀ m, c8Store.nextResourceId ≤ m → m < n →
        ("R" ++ toString m) ∈ c8Store.resourceIds :=
  (claim_C8_auto_naming c8Store ⟨0, by decide⟩ ⟨1, by decide⟩).2

/-! ## Claim C9: the resolution guide -/

/-- Claim C9: with an empty deadlocked set the guide is the single
system-is-safe message; with a non-empty deadlocked set the suggested
release target is the first deadlocked process in iteration order, and
the release suggestions are exactly the pairs `(r, full current
allocation count)` over the target's implicated resources of which it
currently holds an allocation. -/
theorem claim_C9_resolution_guide (g : RAG) (deadlocked : List String)
    (involved : List (String × List String)) :
    (get_deadlock_resolution_guide g [] involved
      = "No deadlock detected. The system is in a safe state.") ∧
    (∀ d0 rest, deadlocked = d0 :: rest →
      suggestionTarget deadlocked = d0 ∧
      ∀ r c, (r, c) ∈ releaseSuggestions g d0 (invOf involved d0) ↔
        r ∈ invOf involved d0 ∧
        alookup (EKey.pair d0 r) g.allocations = some c) := by
  refine ⟨rfl, ?_⟩
  rintro d0 rest rfl
  refine ⟨rfl, ?_⟩
  intro r c
  constructor
  · intro hmem
    rcases List.mem_filterMap.mp hmem with ⟨a, ha, hfa⟩
    cases hlk : alookup (EKey.pair d0 a) g.allocations with
    | none =>
      rw [hlk] at hfa
      simp at hfa
    | some v =>
      rw [hlk] at hfa
      simp only [Option.some.injEq, Prod.mk.injEq] at hfa
      rcases hfa with ⟨ha1, ha2⟩
      subst ha1
      subst ha2
      exact ⟨ha, hlk⟩
  · rintro ⟨hmem, hlk⟩
    exact List.mem_filterMap.mpr ⟨r, hmem, by rw [hlk]⟩

/-- Witness for C9: on the concrete store where `P1` holds one instance
of the implicated resource `R1`, the guide's release suggestion for the
first deadlocked process is to release that full allocation. -/
theorem claim_C9_witness :
    ("R1", (1 : Int)) ∈
      releaseSuggestions c9Store "P1" (invOf [("P1", ["R1"])] "P1") :=
  (((claim_C9_resolution_guide c9Store ["P1"] [("P1", ["R1"])]).2
      "P1" [] rfl).2 "R1" 1).mpr ⟨by decide, by decide⟩

/-! ## Detection engine: bridges between the loop state and `wkMap` -/

theorem alookup_of_nodup_mem {κ α : Type} [DecidableEq κ]
    {l : List (κ × α)} (hnd : (l.map Prod.fst).Nodup) {e : κ × α}
    (he : e ∈ l) : alookup e.1 l = some e.2 := by
  induction l with
  | nil => simp at he
  | cons f rest ih =>
    have hnd' : (f.1 :: rest.map Prod.fst).Nodup := by simpa using hnd
    rcases List.mem_cons.mp he with h | h
    · subst h
      simp [alookup]
    · have hne : f.1 ≠ e.1 := by
        intro hh
        have hmem : e.1 ∈ rest.map Prod.fst := List.mem_map.mpr ⟨e, h, rfl⟩
        rw [← hh] at hmem
        exact (List.nodup_cons.mp hnd').1 hmem
      simp only [alookup, if_neg hne]
      exact ih (List.nodup_cons.mp hnd').2 h

theorem wkOf_append (g : RAG) (F : List String) (p : String) (r : String) :
    wkOf g (F ++ [p]) r = wkOf g F r + g.allocCount p r := by
  simp [wkOf]
  ring

theorem addAllocBack_wkMap (g : RAG) (p : String) (F : List String) :
    addAllocBack g p (wkMap g F) = wkMap g (F ++ [p]) := by
  simp only [addAllocBack, wkMap, List.map_map]
  apply List.map_congr_left
  intro e _
  simp [Function.comp, wkOf_append]

theorem map_fst_wkMap (g : RAG) (F : List String) :
    (wkMap g F).map Prod.fst = g.resourceIds := by
  simp [wkMap, RAG.resourceIds, List.map_map, Function.comp]

theorem canFinish_wkMap (g : RAG) (F : List String) (p : String) :
    canFinish g (wkMap g F) p = true ↔ CanFin g F p := by
  simp only [canFinish, wkMap, List.all_eq_true, CanFin, RAG.resourceIds,
    decide_eq_true_eq]
  constructor
  · intro h r hr
    rcases List.mem_map.mp hr with ⟨e, he, rfl⟩
    have := h (e.1, wkOf g F e.1) (List.mem_map.mpr ⟨e, he, rfl⟩)
    simpa using this
  · intro h x hx
    rcases List.mem_map.mp hx with ⟨e, he, rfl⟩
    simpa using h e.1 (List.mem_map.mpr ⟨e, he, rfl⟩)

theorem initWork_eq_wkMap (g : RAG) (hres : g.resourceIds.Nodup) :
    initWork g = wkMap g [] := by
  simp only [initWork, wkMap]
  apply List.map_congr_left
  intro e he
  have hl : alookup e.1 g.resources = some e.2 :=
    alookup_of_nodup_mem (by simpa [RAG.resourceIds] using hres) he
  simp [wkOf, RAG.availOf, hl]

theorem workAt_wkMap (g : RAG) (F : List String) (r : String)
    (hres : g.resourceIds.Nodup) (hr : r ∈ g.resourceIds) :
    workAt (wkMap g F) r = wkOf g F r := by
  rcases List.mem_map.mp hr with ⟨e, he, rfl⟩
  have hmem : (e.1, wkOf g F e.1) ∈ wkMap g F :=
    List.mem_map.mpr ⟨e, he, rfl⟩
  have hnd : ((wkMap g F).map Prod.fst).Nodup := by
    rw [map_fst_wkMap]
    exact hres
  have hl := alookup_of_nodup_mem hnd hmem
  simp [workAt, hl]

/-! ## Detection engine: one pass -/

theorem detectPass_spec (g : RAG) :
    ∀ (ps F : List String) (found : Bool)
      (tch : List (String × List String)) (w' : List (String × Int))
      (F' : List String) (fd : Bool) (tch' : List (String × List String)),
      detectPass g ps (wkMap g F) F found tch = (w', F', fd, tch') →
      CompSeq g F → F.Nodup →
      w' = wkMap g F' ∧ CompSeq g F' ∧ F'.Nodup ∧
      (∃ ext, F' = F ++ ext ∧ ∀ p ∈ ext, p ∈ ps) ∧
      (found = true → fd = true) ∧
      (fd = false → F' = F ∧
        ∀ p ∈ ps, p ∈ F ∨ canFinish g (wkMap g F) p = false) ∧
      (fd = true → found = true ∨ F.length < F'.length) := by
  intro ps
  induction ps with
  | nil =>
    intro F found tch w' F' fd tch' heq hcs hnd
    simp only [detectPass, Prod.mk.injEq] at heq
    obtain ⟨h1, h2, h3, h4⟩ := heq
    subst h1
    subst h2
    subst h3
    subst h4
    refine ⟨rfl, hcs, hnd, ⟨[], by simp, by simp⟩, fun h => h, ?_, ?_⟩
    · intro _
      exact ⟨rfl, by simp⟩
    · intro h
      exact Or.inl h
  | cons p ps ih =>
    intro F found tch w' F' fd tch' heq hcs hnd
    by_cases hpf : p ∈ F
    · simp only [detectPass, if_pos hpf] at heq
      obtain ⟨h1, h2, h3, ⟨ext, hext, hsub⟩, h5, h6, h7⟩ :=
        ih F found tch w' F' fd tch' heq hcs hnd
      refine ⟨h1, h2, h3,
        ⟨ext, hext, fun q hq => List.mem_cons_of_mem _ (hsub q hq)⟩,
        h5, ?_, h7⟩
      intro hfd
      refine ⟨(h6 hfd).1, ?_⟩
      intro q hq
      rcases List.mem_cons.mp hq with rfl | hq'
      · exact Or.inl hpf
      · exact (h6 hfd).2 q hq'
    · by_cases hcf : canFinish g (wkMap g F) p = true
      · rw [detectPass.eq_def] at heq
        simp only [if_neg hpf, if_pos hcf, addAllocBack_wkMap] at heq
        have hcs2 : CompSeq g (F ++ [p]) :=
          hcs.snoc ((canFinish_wkMap g F p).mp hcf)
        have hnd2 : (F ++ [p]).Nodup :=
          List.nodup_append.mpr ⟨hnd, List.nodup_singleton _,
            by simpa [List.disjoint_singleton] using hpf⟩
        obtain ⟨h1, h2, h3, ⟨ext, hext, hsub⟩, h5, h6, h7⟩ :=
          ih (F ++ [p]) true _ w' F' fd tch' heq hcs2 hnd2
        refine ⟨h1, h2, h3, ⟨p :: ext, by simp [hext], ?_⟩, ?_, ?_, ?_⟩
        · intro q hq
          rcases List.mem_cons.mp hq with rfl | hq'
          · exact List.mem_cons_self _ _
          · exact List.mem_cons_of_mem _ (hsub q hq')
        · intro _
          exact h5 rfl
        · intro hfd
          exact absurd (h5 rfl) (by simp [hfd])
        · intro _
          right
          rw [hext]
          simp only [List.length_append, List.length_cons, List.length_nil]
          omega
      · rw [detectPass.eq_def] at heq
        simp only [if_neg hpf, if_neg hcf] at heq
        obtain ⟨h1, h2, h3, ⟨ext, hext, hsub⟩, h5, h6, h7⟩ :=
          ih F found _ w' F' fd tch' heq hcs hnd
        refine ⟨h1, h2, h3,
          ⟨ext, hext, fun q hq => List.mem_cons_of_mem _ (hsub q hq)⟩,
          h5, ?_, h7⟩
        intro hfd
        refine ⟨(h6 hfd).1, ?_⟩
        intro q hq
        rcases List.mem_cons.mp hq with rfl | hq'
        · exact Or.inr (by simpa using hcf)
        · exact (h6 hfd).2 q hq'

/-! ## Detection engine: the outer loop -/

theorem detectLoop_spec (g : RAG) (order : List String) (hord : order.Nodup) :
    ∀ (fuel : Nat) (F : List String) (tch : List (String × List String)),
      CompSeq g F → F.Nodup → F ⊆ order →
      order.length < fuel + F.length →
      ∀ w' F' tch', detectLoop g order fuel (wkMap g F) F tch
          = (w', F', tch') →
        w' = wkMap g F' ∧ CompSeq g F' ∧ F'.Nodup ∧ F' ⊆ order ∧
        ClosedSet g order F' := by
  intro fuel
  induction fuel with
  | zero =>
    intro F _ _ hnd hsub hlen w' F' _ _
    have := (hnd.subperm hsub).length_le
    omega
  | succ fuel ih =>
    intro F tch hcs hnd hsub hlen w' F' tch' heq
    rcases ht : detectPass g order (wkMap g F) F false tch
      with ⟨w1, F1, fd, tch1⟩
    simp only [detectLoop, ht] at heq
    obtain ⟨h1, h2, h3, ⟨ext, hext, hextsub⟩, _, h6, h7⟩ :=
      detectPass_spec g order F false tch w1 F1 fd tch1 ht hcs hnd
    have hsub1 : F1 ⊆ order := by
      rw [hext]
      intro x hx
      rcases List.mem_append.mp hx with hx | hx
      · exact hsub hx
      · exact hextsub x hx
    cases fd with
    | true =>
      rw [if_pos rfl] at heq
      rw [h1] at heq
      have hlen1 : order.length < fuel + F1.length := by
        rcases h7 rfl with h | h
        · simp at h
        · omega
      exact ih F1 tch1 h2 h3 hsub1 hlen1 w' F' tch' heq
    | false =>
      rw [if_neg Bool.false_ne_true] at heq
      simp only [Prod.mk.injEq] at heq
      obtain ⟨hw, hF, htch⟩ := heq
      subst hw
      subst hF
      obtain ⟨hF1, hclosed⟩ := h6 rfl
      subst hF1
      refine ⟨h1, h2, h3, hsub1, ?_⟩
      intro q hq hqF hcan
      rcases hclosed q hq with h | h
      · exact hqF h
      · rw [← canFinish_wkMap g F1 q] at hcan
        rw [hcan] at h
        simp at h

/-- Characterisation of the loop's output `(work, finish)`: the finish
list is a nodup completion sequence within the iteration order, the final
work dictionary is determined by it, and it is closed — no remaining
process can finish.  This is the work/finish fixed point. -/
theorem detectWF_spec (g : RAG) (order : List String) (hord : order.Nodup)
    (hres : g.resourceIds.Nodup) :
    (detectWF g order).1 = wkMap g (detectWF g order).2.1 ∧
    CompSeq g (detectWF g order).2.1 ∧ (detectWF g order).2.1.Nodup ∧
    (detectWF g order).2.1 ⊆ order ∧
    ClosedSet g order (detectWF g order).2.1 := by
  apply detectLoop_spec g order hord (order.length + 1) [] [] CompSeq.nil
    List.nodup_nil (by simp) (by omega) (detectWF g order).1
    (detectWF g order).2.1 (detectWF g order).2.2
  rw [detectWF, initWork_eq_wkMap g hres]

/-! ## The touched-key state of the nested request dict -/

theorem isPre_nil {α : Type} (l : List α) : IsPre [] l := ⟨l, rfl⟩

theorem isPre_refl {α : Type} (l : List α) : IsPre l l := ⟨[], by simp⟩

theorem isPre_trans {α : Type} {l1 l2 l3 : List α} (h1 : IsPre l1 l2)
    (h2 : IsPre l2 l3) : IsPre l1 l3 := by
  rcases h1 with ⟨t1, ht1⟩
  rcases h2 with ⟨t2, ht2⟩
  exact ⟨t1 ++ t2, by rw [← List.append_assoc, ht1, ht2]⟩

theorem isPre_subset {α : Type} {l1 l2 : List α} (h : IsPre l1 l2) :
    l1 ⊆ l2 := by
  rcases h with ⟨t, ht⟩
  rw [← ht]
  exact fun x hx => List.mem_append_left _ hx

theorem isPre_nodup {α : Type} {l1 l2 : List α} (h : IsPre l1 l2)
    (hnd : l2.Nodup) : l1.Nodup := by
  rcases h with ⟨t, ht⟩
  rw [← ht] at hnd
  exact (List.nodup_append.mp hnd).1

theorem isPre_append_delta {α : Type} {l1 l2 : List α} (h : IsPre l1 l2) :
    ∃ t, l2 = l1 ++ t := by
  rcases h with ⟨t, ht⟩
  exact ⟨t, ht.symm⟩

theorem alookup_dictSetD_self {α : Type} (k : String) (v : α)
    (l : List (String × α)) : alookup k (dictSetD k v l) = some v := by
  rw [dictSetD]
  split
  · rename_i h
    rw [alookup_dictModify_self]
    cases hx : alookup k l with
    | none => rw [hx] at h; simp at h
    | some w => simp
  · rename_i h
    have hnone : alookup k l = none := by
      cases hx : alookup k l with
      | none => rfl
      | some w => rw [hx] at h; simp at h
    rw [alookup_append_none hnone]
    simp [alookup]

theorem alookup_dictSetD_ne {α : Type} {k q : String} (v : α)
    (l : List (String × α)) (h : q ≠ k) :
    alookup q (dictSetD k v l) = alookup q l := by
  rw [dictSetD]
  split
  · exact alookup_dictModify_ne _ _ h
  · cases hx : alookup q l with
    | none => rw [alookup_append_none hx]; simp [alookup, Ne.symm h]
    | some w => rw [alookup_append_some hx]

theorem reqKeysOf_setD_self (g : RAG) (tch : List (String × List String))
    (p : String) (v : List String) :
    reqKeysOf g (dictSetD p v tch) p = v := by
  simp [reqKeysOf, alookup_dictSetD_self]

theorem reqKeysOf_setD_ne (g : RAG) (tch : List (String × List String))
    {p q : String} (v : List String) (h : q ≠ p) :
    reqKeysOf g (dictSetD p v tch) q = reqKeysOf g tch q := by
  simp [reqKeysOf, alookup_dictSetD_ne v tch h]

theorem scanPfx_isPre_keys (g : RAG) (p : String) :
    ∀ w : List (String × Int), IsPre (scanPfx g p w) (w.map Prod.fst) := by
  intro w
  induction w with
  | nil => exact isPre_nil _
  | cons rw rest ih =>
    by_cases h : g.reqCount p rw.1 ≤ rw.2
    · simp only [scanPfx, if_pos h, List.map_cons]
      rcases ih with ⟨t, ht⟩
      exact ⟨t, by simp [ht]⟩
    · simp only [scanPfx, if_neg h, List.map_cons]
      exact ⟨rest.map Prod.fst, rfl⟩

theorem forall₂_map_self {α β : Type} (R : β → β → Prop) (f h : α → β)
    (l : List α) (hfh : ∀ a ∈ l, R (f a) (h a)) :
    List.Forall₂ R (l.map f) (l.map h) := by
  induction l with
  | nil => exact List.Forall₂.nil
  | cons a rest ih =>
    simp only [List.map_cons]
    exact List.Forall₂.cons (hfh a (List.mem_cons_self _ _))
      (ih fun x hx => hfh x (List.mem_cons_of_mem _ hx))

theorem scanPfx_mono (g : RAG) (p : String) {w1 w2 : List (String × Int)}
    (h : List.Forall₂ (fun a b => a.1 = b.1 ∧ a.2 ≤ b.2) w1 w2) :
    IsPre (scanPfx g p w1) (scanPfx g p w2) := by
  induction h with
  | nil => exact isPre_refl _
  | cons hab hrest ih =>
    rename_i a b l1 l2
    obtain ⟨hk, hv⟩ := hab
    by_cases h1 : g.reqCount p a.1 ≤ a.2
    · have h2 : g.reqCount p b.1 ≤ b.2 := by rw [← hk]; omega
      have e1 : scanPfx g p (a :: l1) = a.1 :: scanPfx g p l1 := by
        simp [scanPfx, h1]
      have e2 : scanPfx g p (b :: l2) = b.1 :: scanPfx g p l2 := by
        simp [scanPfx, h2]
      rw [e1, e2, hk]
      rcases ih with ⟨t, ht⟩
      exact ⟨t, by simp [ht]⟩
    · by_cases h2 : g.reqCount p b.1 ≤ b.2
      · have e1 : scanPfx g p (a :: l1) = [a.1] := by simp [scanPfx, h1]
        have e2 : scanPfx g p (b :: l2) = b.1 :: scanPfx g p l2 := by
          simp [scanPfx, h2]
        rw [e1, e2, hk]
        exact ⟨scanPfx g p l2, rfl⟩
      · have e1 : scanPfx g p (a :: l1) = [a.1] := by simp [scanPfx, h1]
        have e2 : scanPfx g p (b :: l2) = [b.1] := by simp [scanPfx, h2]
        rw [e1, e2, hk]
        exact isPre_refl _

theorem sum_map_le_of_sublist {l1 l2 : List String} (f : String → Int)
    (h : List.Sublist l1 l2) (h0 : ∀ a ∈ l2, 0 ≤ f a) :
    (l1.map f).sum ≤ (l2.map f).sum := by
  induction h with
  | slnil => simp
  | cons a hsub ih =>
    rename_i l1 l2
    have hrec := ih fun x hx => h0 x (List.mem_cons_of_mem _ hx)
    have ha := h0 a (List.mem_cons_self _ _)
    simp only [List.map_cons, List.sum_cons]
    omega
  | cons₂ a hsub ih =>
    rename_i l1 l2
    have hrec := ih fun x hx => h0 x (List.mem_cons_of_mem _ hx)
    simp only [List.map_cons, List.sum_cons]
    omega

theorem wkOf_mono (g : RAG) {F G : List String} (r : String)
    (hA : ∀ p r0, 0 ≤ g.allocCount p r0)
    (hF : F.Nodup) (hG : G.Nodup) (hsub : F ⊆ G) :
    wkOf g F r ≤ wkOf g G r := by
  rcases hF.subperm hsub with ⟨l, hperm, hsl⟩
  have h1 : (l.map fun p => g.allocCount p r).sum
      = (F.map fun p => g.allocCount p r).sum :=
    (hperm.map _).sum_eq
  have h2 : (l.map fun p => g.allocCount p r).sum
      ≤ (G.map fun p => g.allocCount p r).sum :=
    sum_map_le_of_sublist _ hsl fun a _ => hA a r
  simp only [wkOf]
  omega

theorem wkMap_forall₂_mono (g : RAG) {F G : List String}
    (hA : ∀ p r0, 0 ≤ g.allocCount p r0)
    (hF : F.Nodup) (hG : G.Nodup) (hsub : F ⊆ G) :
    List.Forall₂ (fun a b => a.1 = b.1 ∧ a.2 ≤ b.2)
      (wkMap g F) (wkMap g G) := by
  apply forall₂_map_self
  intro e _
  exact ⟨rfl, wkOf_mono g e.1 hA hF hG hsub⟩

theorem scanKeys_eq (g : RAG) (p : String) :
    ∀ (w : List (String × Int)) (ks : List String),
      (w.map Prod.fst).Nodup →
      scanKeys g p w ks
        = ks ++ (scanPfx g p w).filter (fun r => r ∉ ks) := by
  intro w
  induction w with
  | nil =>
    intro ks _
    simp [scanKeys, scanPfx]
  | cons rw rest ih =>
    intro ks hnd
    have hnd2 : (rw.1 :: rest.map Prod.fst).Nodup := by simpa using hnd
    have hhead : rw.1 ∉ rest.map Prod.fst := (List.nodup_cons.mp hnd2).1
    have hndr : (rest.map Prod.fst).Nodup := (List.nodup_cons.mp hnd2).2
    by_cases h : g.reqCount p rw.1 ≤ rw.2
    · simp only [scanKeys, scanPfx, if_pos h]
      rw [ih (keyInsert rw.1 ks) hndr]
      by_cases hm : rw.1 ∈ ks
      · simp only [keyInsert, if_pos hm]
        simp [List.filter_cons, hm]
      · simp only [keyInsert, if_neg hm]
        have hfil : (scanPfx g p rest).filter
              (fun r => decide (r ∉ ks ++ [rw.1]))
            = (scanPfx g p rest).filter (fun r => decide (r ∉ ks)) := by
          apply List.filter_congr
          intro r hr
          have hrk : r ∈ rest.map Prod.fst :=
            isPre_subset (scanPfx_isPre_keys g p rest) hr
          have hrne : r ≠ rw.1 := by
            intro hre
            rw [hre] at hrk
            exact hhead hrk
          simp [List.mem_append, hrne]
        rw [hfil]
        simp [List.filter_cons, hm]
    · simp only [scanKeys, scanPfx, if_neg h]
      by_cases hm : rw.1 ∈ ks
      · simp [keyInsert, hm, List.filter_cons]
      · simp [keyInsert, hm, List.filter_cons]

theorem absorb_pre_filter (orig P1 P2 : List String)
    (hpre : IsPre P1 P2) (hnd : P2.Nodup) :
    (orig ++ P1.filter (fun r => r ∉ orig))
      ++ P2.filter (fun r => r ∉ orig ++ P1.filter (fun r => r ∉ orig))
      = orig ++ P2.filter (fun r => r ∉ orig) := by
  rcases isPre_append_delta hpre with ⟨S, hS⟩
  subst hS
  have hdisj : ∀ r ∈ S, r ∉ P1 := by
    intro r hr hrP
    rcases List.nodup_append.mp hnd with ⟨_, _, hd⟩
    exact hd hrP hr
  rw [List.filter_append]
  have h1 : P1.filter
      (fun r => decide (r ∉ orig ++ P1.filter (fun r => r ∉ orig))) = [] := by
    rw [List.filter_eq_nil_iff]
    intro r hr
    simp only [decide_eq_true_eq, not_not]
    rw [List.mem_append]
    by_cases hro : r ∈ orig
    · exact Or.inl hro
    · right
      rw [List.mem_filter]
      exact ⟨hr, by simpa using hro⟩
  have h2 : S.filter
        (fun r => decide (r ∉ orig ++ P1.filter (fun r => r ∉ orig)))
      = S.filter (fun r => decide (r ∉ orig)) := by
    apply List.filter_congr
    intro r hr
    have hrp := hdisj r hr
    simp [List.mem_append, List.mem_filter, hrp]
  rw [h1, h2, List.filter_append, List.append_assoc]
  simp

theorem touchInv_mono (g : RAG) {F G : List String}
    (hA : ∀ p r0, 0 ≤ g.allocCount p r0) (hF : F.Nodup) (hG : G.Nodup)
    (hsub : F ⊆ G) {tch : List (String × List String)}
    (h : TouchInv g F tch) : TouchInv g G tch := by
  intro p
  rcases h p with ⟨P, hpre, hval⟩
  exact ⟨P, isPre_trans hpre
    (scanPfx_mono g p (wkMap_forall₂_mono g hA hF hG hsub)), hval⟩

theorem touchInv_scan (g : RAG) (hres : g.resourceIds.Nodup)
    (F : List String) (tch : List (String × List String)) (p : String)
    (hinv : TouchInv g F tch) :
    scanKeys g p (wkMap g F) (reqKeysOf g tch p)
      = origReqKeys g p ++ (scanPfx g p (wkMap g F)).filter
          (fun r => r ∉ origReqKeys g p) := by
  have hndk : ((wkMap g F).map Prod.fst).Nodup := by
    rw [map_fst_wkMap]
    exact hres
  rcases hinv p with ⟨P, hpre, hval⟩
  rw [scanKeys_eq g p (wkMap g F) _ hndk, hval]
  exact absorb_pre_filter _ _ _ hpre
    (isPre_nodup (scanPfx_isPre_keys g p (wkMap g F)) hndk)

theorem detectPass_touch (g : RAG) (hres : g.resourceIds.Nodup)
    (hA : ∀ p r0, 0 ≤ g.allocCount p r0) :
    ∀ (ps F : List String) (found : Bool)
      (tch : List (String × List String)) (w' : List (String × Int))
      (F' : List String) (fd : Bool) (tch' : List (String × List String)),
      detectPass g ps (wkMap g F) F found tch = (w', F', fd, tch') →
      CompSeq g F → F.Nodup → ps.Nodup → TouchInv g F tch →
      TouchInv g F' tch' ∧
      (∀ q, (q ∉ ps ∨ q ∈ F) →
        reqKeysOf g tch' q = reqKeysOf g tch q) ∧
      (fd = false → ∀ p ∈ ps, p ∉ F →
        reqKeysOf g tch' p = origReqKeys g p
          ++ (scanPfx g p (wkMap g F)).filter
              (fun r => r ∉ origReqKeys g p)) := by
  intro ps
  induction ps with
  | nil =>
    intro F found tch w' F' fd tch' heq hcs hnd hpsnd hinv
    simp only [detectPass, Prod.mk.injEq] at heq
    obtain ⟨h1, h2, h3, h4⟩ := heq
    subst h2
    subst h4
    exact ⟨hinv, fun q _ => rfl, fun _ p hp => absurd hp (by simp)⟩
  | cons p ps ih =>
    intro F found tch w' F' fd tch' heq hcs hnd hpsnd hinv
    have hpsnd2 : ps.Nodup := (List.nodup_cons.mp hpsnd).2
    have hpnotps : p ∉ ps := (List.nodup_cons.mp hpsnd).1
    by_cases hpf : p ∈ F
    · simp only [detectPass, if_pos hpf] at heq
      obtain ⟨hA1, hD1, hE1⟩ :=
        ih F found tch w' F' fd tch' heq hcs hnd hpsnd2 hinv
      refine ⟨hA1, ?_, ?_⟩
      · intro q hq
        apply hD1
        rcases hq with hq | hq
        · exact Or.inl fun hx => hq (List.mem_cons_of_mem _ hx)
        · exact Or.inr hq
      · intro hfd q hq hqF
        rcases List.mem_cons.mp hq with rfl | hq2
        · exact absurd hpf hqF
        · exact hE1 hfd q hq2 hqF
    · have hscan := touchInv_scan g hres F tch p hinv
      by_cases hcf : canFinish g (wkMap g F) p = true
      · rw [detectPass.eq_def] at heq
        simp only [if_neg hpf, if_pos hcf, addAllocBack_wkMap] at heq
        have hcs2 : CompSeq g (F ++ [p]) :=
          hcs.snoc ((canFinish_wkMap g F p).mp hcf)
        have hnd2 : (F ++ [p]).Nodup :=
          List.nodup_append.mpr ⟨hnd, List.nodup_singleton _,
            by simpa [List.disjoint_singleton] using hpf⟩
        have hsubF : F ⊆ F ++ [p] := fun x hx => List.mem_append_left _ hx
        have hinv2 : TouchInv g (F ++ [p])
            (dictSetD p (scanKeys g p (wkMap g F) (reqKeysOf g tch p)) tch) := by
          intro q
          by_cases hqp : q = p
          · subst hqp
            refine ⟨scanPfx g q (wkMap g F), ?_, ?_⟩
            · exact scanPfx_mono g q (wkMap_forall₂_mono g hA hnd hnd2 hsubF)
            · rw [reqKeysOf_setD_self, hscan]
          · rcases hinv q with ⟨P, hpre, hval⟩
            refine ⟨P, isPre_trans hpre (scanPfx_mono g q
              (wkMap_forall₂_mono g hA hnd hnd2 hsubF)), ?_⟩
            rw [reqKeysOf_setD_ne g tch _ hqp, hval]
        obtain ⟨hA1, hD1, hE1⟩ :=
          ih (F ++ [p]) true _ w' F' fd tch' heq hcs2 hnd2 hpsnd2 hinv2
        have hfd : fd = true := by
          obtain ⟨_, _, _, _, h5, _, _⟩ :=
            detectPass_spec g ps (F ++ [p]) true _ w' F' fd tch' heq hcs2 hnd2
          exact h5 rfl
        refine ⟨hA1, ?_, ?_⟩
        · intro q hq
          have hqp : q ≠ p := by
            rcases hq with hq | hq
            · exact fun hx => hq (hx ▸ List.mem_cons_self _ _)
            · exact fun hx => hpf (hx ▸ hq)
          have := hD1 q (by
            rcases hq with hq | hq
            · exact Or.inl fun hx => hq (List.mem_cons_of_mem _ hx)
            · exact Or.inr (List.mem_append_left _ hq))
          rw [this, reqKeysOf_setD_ne g tch _ hqp]
        · intro hfd2
          rw [hfd] at hfd2
          simp at hfd2
      · rw [detectPass.eq_def] at heq
        simp only [if_neg hpf, if_neg hcf] at heq
        have hinv2 : TouchInv g F
            (dictSetD p (scanKeys g p (wkMap g F) (reqKeysOf g tch p)) tch) := by
          intro q
          by_cases hqp : q = p
          · subst hqp
            refine ⟨scanPfx g q (wkMap g F), isPre_refl _, ?_⟩
            rw [reqKeysOf_setD_self, hscan]
          · rcases hinv q with ⟨P, hpre, hval⟩
            refine ⟨P, hpre, ?_⟩
            rw [reqKeysOf_setD_ne g tch _ hqp, hval]
        obtain ⟨hA1, hD1, hE1⟩ :=
          ih F found _ w' F' fd tch' heq hcs hnd hpsnd2 hinv2
        refine ⟨hA1, ?_, ?_⟩
        · intro q hq
          have hqp : q ≠ p := by
            rcases hq with hq | hq
            · exact fun hx => hq (hx ▸ List.mem_cons_self _ _)
            · exact fun hx => hpf (hx ▸ hq)
          have := hD1 q (by
            rcases hq with hq | hq
            · exact Or.inl fun hx => hq (List.mem_cons_of_mem _ hx)
            · exact Or.inr hq)
          rw [this, reqKeysOf_setD_ne g tch _ hqp]
        · intro hfd q hq hqF
          rcases List.mem_cons.mp hq with rfl | hq2
          · have := hD1 q (Or.inl hpnotps)
            rw [this, reqKeysOf_setD_self, hscan]
          · exact hE1 hfd q hq2 hqF

theorem detectLoop_touch (g : RAG) (order : List String)
    (hord : order.Nodup) (hres : g.resourceIds.Nodup)
    (hA : ∀ p r0, 0 ≤ g.allocCount p r0) :
    ∀ (fuel : Nat) (F : List String) (tch : List (String × List String)),
      CompSeq g F → F.Nodup → F ⊆ order →
      order.length < fuel + F.length → TouchInv g F tch →
      ∀ w' F' tch', detectLoop g order fuel (wkMap g F) F tch
          = (w', F', tch') →
        ∀ p ∈ order, p ∉ F' →
          reqKeysOf g tch' p = origReqKeys g p
            ++ (scanPfx g p (wkMap g F')).filter
                (fun r => r ∉ origReqKeys g p) := by
  intro fuel
  induction fuel with
  | zero =>
    intro F _ _ hnd hsub hlen _ w' F' tch' _
    have := (hnd.subperm hsub).length_le
    omega
  | succ fuel ih =>
    intro F tch hcs hnd hsub hlen hinv w' F' tch' heq
    rcases ht : detectPass g order (wkMap g F) F false tch
      with ⟨w1, F1, fd, tch1⟩
    simp only [detectLoop, ht] at heq
    obtain ⟨h1, h2, h3, ⟨ext, hext, hextsub⟩, _, h6, h7⟩ :=
      detectPass_spec g order F false tch w1 F1 fd tch1 ht hcs hnd
    obtain ⟨hA1, hD1, hE1⟩ :=
      detectPass_touch g hres hA order F false tch w1 F1 fd tch1 ht
        hcs hnd hord hinv
    have hsub1 : F1 ⊆ order := by
      rw [hext]
      intro x hx
      rcases List.mem_append.mp hx with hx | hx
      · exact hsub hx
      · exact hextsub x hx
    cases fd with
    | true =>
      rw [if_pos rfl] at heq
      rw [h1] at heq
      have hlen1 : order.length < fuel + F1.length := by
        rcases h7 rfl with h | h
        · simp at h
        · omega
      exact ih F1 tch1 h2 h3 hsub1 hlen1 hA1 w' F' tch' heq
    | false =>
      rw [if_neg Bool.false_ne_true] at heq
      simp only [Prod.mk.injEq] at heq
      obtain ⟨hw, hF, htch⟩ := heq
      subst hw
      subst hF
      subst htch
      obtain ⟨hF1, _⟩ := h6 rfl
      subst hF1
      intro p hp hpF
      exact hE1 rfl p hp hpF

/-- The touched-key list of every process left unfinished by the loop:
its build-time request keys followed by the resources of the final,
short-circuited scan (the work entries up to and including the first one
whose final work value its request exceeds). -/
theorem detectWF_touch (g : RAG) (order : List String) (hord : order.Nodup)
    (hres : g.resourceIds.Nodup)
    (hA : ∀ p r0, 0 ≤ g.allocCount p r0) :
    ∀ p ∈ order, p ∉ (detectWF g order).2.1 →
      reqKeysOf g (detectWF g order).2.2 p
        = origReqKeys g p
          ++ (scanPfx g p (wkMap g (detectWF g order).2.1)).filter
              (fun r => r ∉ origReqKeys g p) := by
  apply detectLoop_touch g order hord hres hA (order.length + 1) [] []
    CompSeq.nil List.nodup_nil (by simp) (by omega) ?tinv
    (detectWF g order).1 (detectWF g order).2.1 (detectWF g order).2.2 ?heq
  case tinv =>
    intro q
    refine ⟨[], isPre_nil _, ?_⟩
    simp [reqKeysOf, alookup]
  case heq =>
    rw [detectWF, initWork_eq_wkMap g hres]

/-! ## Confluence of the detection fixed point -/

theorem compSeq_subset_of_closed (g : RAG) (order : List String)
    (hA : ∀ p r0, 0 ≤ g.allocCount p r0)
    {G : List String} (hGnd : G.Nodup) (hGcl : ClosedSet g order G) :
    ∀ {F : List String}, CompSeq g F → F.Nodup → F ⊆ order → F ⊆ G := by
  intro F hcs
  induction hcs with
  | nil =>
    intro _ _
    exact List.nil_subset _
  | snoc hcsF hcan ih =>
    rename_i F p
    intro hnd hsub
    have hndsplit := List.nodup_append.mp hnd
    have hndF : F.Nodup := hndsplit.1
    have hpF : p ∉ F := by
      have := hndsplit.2.2
      simpa [List.disjoint_singleton] using this
    have hsubF : F ⊆ order := fun x hx => hsub (List.mem_append_left _ hx)
    have hFG : F ⊆ G := ih hndF hsubF
    have hpG : p ∈ G := by
      by_contra hpG
      apply hGcl p (hsub (by simp)) hpG
      intro r hr
      calc g.reqCount p r ≤ wkOf g F r := hcan r hr
        _ ≤ wkOf g G r := wkOf_mono g r hA hndF hGnd hFG
    intro x hx
    rcases List.mem_append.mp hx with hx | hx
    · exact hFG hx
    · have hxp : x = p := by simpa using hx
      rw [hxp]
      exact hpG

theorem wkOf_eq_of_set_eq (g : RAG) {F G : List String}
    (hFnd : F.Nodup) (hGnd : G.Nodup) (hiff : ∀ x, x ∈ F ↔ x ∈ G)
    (r : String) : wkOf g F r = wkOf g G r := by
  have hperm : F.Perm G :=
    (hFnd.subperm fun x hx => (hiff x).mp hx).antisymm
      (hGnd.subperm fun x hx => (hiff x).mpr hx)
  simp only [wkOf]
  rw [(hperm.map fun p => g.allocCount p r).sum_eq]

/-! ## Claims C5, C6, C7: the detection algorithm -/

/-- Claim C5: `detect_deadlock` reaches the work/finish fixed point (the
finish list is a completion sequence starting from the per-resource
`available` work vector, and at termination no unfinished process can
finish), returns `isDeadlocked = true` exactly when some process is
unfinished at that fixed point, returns as deadlocked exactly the
unfinished processes, and reports safe exactly when every process
finished. -/
theorem claim_C5_fixed_point (g : RAG) (hk : g.wellKeyed = true)
    (hp : g.processes.Nodup) (hres : g.resourceIds.Nodup) :
    ∃ isDl dl inv F,
      detect_deadlock g g.processes = some (isDl, dl, inv) ∧
      CompSeq g F ∧ F.Nodup ∧ F ⊆ g.processes ∧
      ClosedSet g g.processes F ∧
      (∀ p, p ∈ dl ↔ p ∈ g.processes ∧ p ∉ F) ∧
      (isDl = true ↔ dl ≠ []) ∧
      (isDl = false ↔ ∀ p ∈ g.processes, p ∈ F) := by
  obtain ⟨hw, hcs, hnd, hsub, hcl⟩ := detectWF_spec g g.processes hp hres
  refine ⟨decide (0 < (g.processes.filter
      (fun p => p ∉ (detectWF g g.processes).2.1)).length),
    g.processes.filter (fun p => p ∉ (detectWF g g.processes).2.1),
    (g.processes.filter (fun p => p ∉ (detectWF g g.processes).2.1)).map
      (fun p => (p, (reqKeysOf g (detectWF g g.processes).2.2 p).filter
        fun r => decide (workAt (detectWF g g.processes).1 r
          < g.reqCount p r))),
    (detectWF g g.processes).2.1, ?_, hcs, hnd, hsub, hcl, ?_, ?_, ?_⟩
  · rw [detect_deadlock, if_pos hk]
  · intro p
    simp [List.mem_filter]
  · simp only [decide_eq_true_eq]
    constructor
    · intro h
      intro hnil
      rw [hnil] at h
      simp at h
    · intro h
      have := List.length_pos.mpr h
      omega
  · simp only [decide_eq_false_iff_not, not_lt, Nat.le_zero,
      List.length_eq_zero]
    rw [List.filter_eq_nil_iff]
    simp

/-- Witness for C5: the fixed-point characterisation applied to the
two-process circular-wait store. -/
theorem claim_C5_witness :
    ∃ isDl dl inv F,
      detect_deadlock cycleStore cycleStore.processes
        = some (isDl, dl, inv) ∧
      CompSeq cycleStore F ∧ F.Nodup ∧ F ⊆ cycleStore.processes ∧
      ClosedSet cycleStore cycleStore.processes F ∧
      (∀ p, p ∈ dl ↔ p ∈ cycleStore.processes ∧ p ∉ F) ∧
      (isDl = true ↔ dl ≠ []) ∧
      (isDl = false ↔ ∀ p ∈ cycleStore.processes, p ∈ F) :=
  claim_C5_fixed_point cycleStore (by decide) (by decide) (by decide)

theorem allocCount_nonneg_of_entries {g : RAG}
    (h : ∀ e ∈ g.allocations, 0 ≤ e.2) : ∀ p r, 0 ≤ g.allocCount p r := by
  intro p r
  simp only [RAG.allocCount]
  cases hlk : alookup (EKey.pair p r) g.allocations with
  | none => simp
  | some v => simpa using h _ (alookup_mem hlk)

theorem mem_origReqKeys_iff (g : RAG) (p r : String) :
    r ∈ origReqKeys g p ↔ ∃ c, (EKey.pair p r, c) ∈ g.requests := by
  simp only [origReqKeys, List.mem_filterMap]
  constructor
  · rintro ⟨e, he, hme⟩
    obtain ⟨k, c⟩ := e
    cases k with
    | pair q s =>
      simp only at hme
      by_cases hq : q = p
      · rw [if_pos hq] at hme
        cases hme
        subst hq
        exact ⟨c, he⟩
      · rw [if_neg hq] at hme
        cases hme
    | str s => simp at hme
  · rintro ⟨c, hc⟩
    exact ⟨(EKey.pair p r, c), hc, by simp⟩

theorem reqKeysValid_res {g : RAG} (hrv : g.reqKeysValid = true)
    {p r : String} {c : Int} (hmem : (EKey.pair p r, c) ∈ g.requests) :
    r ∈ g.resourceIds := by
  have := (List.all_eq_true.mp hrv) _ hmem
  simpa using this

theorem wkOf_nonneg (g : RAG) (F : List String) (r : String)
    (hAv : ∀ r0 ∈ g.resourceIds, 0 ≤ g.availOf r0)
    (hA : ∀ p r0, 0 ≤ g.allocCount p r0) (hr : r ∈ g.resourceIds) :
    0 ≤ wkOf g F r := by
  have h1 := hAv r hr
  have h2 : 0 ≤ (F.map fun p => g.allocCount p r).sum := by
    apply List.sum_nonneg
    intro x hx
    rcases List.mem_map.mp hx with ⟨p, _, rfl⟩
    exact hA p r
  simp only [wkOf]
  omega

theorem mem_keys_split {orig P : List String} {r : String} :
    r ∈ orig ++ P.filter (fun x => x ∉ orig) ↔ r ∈ orig ∨ r ∈ P := by
  simp only [List.mem_append, List.mem_filter, decide_eq_true_eq]
  constructor
  · rintro (h | ⟨h, _⟩)
    · exact Or.inl h
    · exact Or.inr h
  · rintro (h | h)
    · exact Or.inl h
    · by_cases ho : r ∈ orig
      · exact Or.inl ho
      · exact Or.inr ⟨h, ho⟩

/-- Claim C6: for every deadlocked process the detection result carries
an implicated-resource entry, holding exactly the store resources whose
outstanding request count (absent entries counting as zero) strictly
exceeds the final work value at the moment the fixed-point loop
terminated.  The hypotheses are the section-3 data model: distinct
identifiers, nonnegative `available` and allocation counts, and request
edges over existing resources.  (On a store outside the data model — a
negative `available`, reachable only through the negative-count
`remove_allocation` loophole — the short-circuiting scan can leave the
returned set strictly smaller than this characterisation.) -/
theorem claim_C6_implicated (g : RAG) (hk : g.wellKeyed = true)
    (hp : g.processes.Nodup) (hres : g.resourceIds.Nodup)
    (hA : ∀ p r, 0 ≤ g.allocCount p r)
    (hAv : ∀ r ∈ g.resourceIds, 0 ≤ g.availOf r)
    (hrv : g.reqKeysValid = true) :
    ∃ isDl dl inv,
      detect_deadlock g g.processes = some (isDl, dl, inv) ∧
      (∀ p ∈ dl, (p, (reqKeysOf g (detectWF g g.processes).2.2 p).filter
        fun r => decide (workAt (detectWF g g.processes).1 r
          < g.reqCount p r)) ∈ inv) ∧
      ∀ p rs, (p, rs) ∈ inv →
        ∀ r, r ∈ rs ↔ r ∈ g.resourceIds ∧
          workAt (detectWF g g.processes).1 r < g.reqCount p r := by
  obtain ⟨hw, hcs, hnd, hsub, hcl⟩ := detectWF_spec g g.processes hp hres
  refine ⟨decide (0 < (g.processes.filter
      (fun p => p ∉ (detectWF g g.processes).2.1)).length),
    g.processes.filter (fun p => p ∉ (detectWF g g.processes).2.1),
    (g.processes.filter (fun p => p ∉ (detectWF g g.processes).2.1)).map
      (fun p => (p, (reqKeysOf g (detectWF g g.processes).2.2 p).filter
        fun r => decide (workAt (detectWF g g.processes).1 r
          < g.reqCount p r))),
    ?_, ?_, ?_⟩
  · rw [detect_deadlock, if_pos hk]
  · intro p hpdl
    exact List.mem_map.mpr ⟨p, hpdl, rfl⟩
  · intro p rs hmem r
    rcases List.mem_map.mp hmem with ⟨q, hq, heq2⟩
    simp only [Prod.mk.injEq] at heq2
    rcases heq2 with ⟨rfl, rfl⟩
    have hqo : q ∈ g.processes ∧ q ∉ (detectWF g g.processes).2.1 := by
      simpa [List.mem_filter] using hq
    have htouch := detectWF_touch g g.processes hp hres hA q hqo.1 hqo.2
    rw [htouch]
    constructor
    · intro hr
      rw [List.mem_filter] at hr
      obtain ⟨hkeys, hpred⟩ := hr
      refine ⟨?_, by simpa using hpred⟩
      rcases mem_keys_split.mp hkeys with hO | hP
      · rcases (mem_origReqKeys_iff g q r).mp hO with ⟨c, hc⟩
        exact reqKeysValid_res hrv hc
      · have hmem2 := isPre_subset (scanPfx_isPre_keys g q
          (wkMap g (detectWF g g.processes).2.1)) hP
        rw [map_fst_wkMap] at hmem2
        exact hmem2
    · rintro ⟨hrid, hpred⟩
      rw [List.mem_filter]
      refine ⟨?_, by simpa using hpred⟩
      apply mem_keys_split.mpr
      left
      have hwnn : 0 ≤ workAt (detectWF g g.processes).1 r := by
        rw [hw, workAt_wkMap g _ r hres hrid]
        exact wkOf_nonneg g _ r hAv hA hrid
      have hpos : 0 < g.reqCount q r := by omega
      rw [RAG.reqCount] at hpos
      cases hlk : alookup (EKey.pair q r) g.requests with
      | none =>
        rw [hlk] at hpos
        simp at hpos
      | some v =>
        exact (mem_origReqKeys_iff g q r).mpr ⟨v, alookup_mem hlk⟩

/-- Witness for C6: the implicated-set characterisation applied to the
two-process circular-wait store, which satisfies all the data-model
hypotheses. -/
theorem claim_C6_witness :
    ∃ isDl dl inv,
      detect_deadlock cycleStore cycleStore.processes
        = some (isDl, dl, inv) ∧
      (∀ p ∈ dl, (p, (reqKeysOf cycleStore
          (detectWF cycleStore cycleStore.processes).2.2 p).filter
        fun r => decide (workAt (detectWF cycleStore
            cycleStore.processes).1 r
          < cycleStore.reqCount p r)) ∈ inv) ∧
      ∀ p rs, (p, rs) ∈ inv →
        ∀ r, r ∈ rs ↔ r ∈ cycleStore.resourceIds ∧
          workAt (detectWF cycleStore cycleStore.processes).1 r
            < cycleStore.reqCount p r :=
  claim_C6_implicated cycleStore (by decide) (by decide) (by decide)
    (allocCount_nonneg_of_entries (by decide)) (by decide) (by decide)

/-- Claim C7: on a data-model snapshot (distinct identifiers, nonnegative
allocation counts), running the detection loop over any permutation of
the process iteration order yields the same safe/deadlocked verdict, the
same set of deadlocked processes, and the same per-process
implicated-resource entries. -/
theorem claim_C7_order_independence (g : RAG) (order : List String)
    (hk : g.wellKeyed = true) (hp : g.processes.Nodup)
    (hres : g.resourceIds.Nodup)
    (hA : ∀ p r, 0 ≤ g.allocCount p r)
    (hperm : order.Perm g.processes) :
    ∃ isDl dl inv isDl2 dl2 inv2,
      detect_deadlock g order = some (isDl, dl, inv) ∧
      detect_deadlock g g.processes = some (isDl2, dl2, inv2) ∧
      isDl = isDl2 ∧ (∀ p, p ∈ dl ↔ p ∈ dl2) ∧
      ∀ x, x ∈ inv ↔ x ∈ inv2 := by
  have hord : order.Nodup := hperm.nodup_iff.mpr hp
  obtain ⟨hw1, hcs1, hnd1, hsub1, hcl1⟩ := detectWF_spec g order hord hres
  obtain ⟨hw2, hcs2, hnd2, hsub2, hcl2⟩ :=
    detectWF_spec g g.processes hp hres
  have hmemiff : ∀ x, x ∈ order ↔ x ∈ g.processes := fun x => hperm.mem_iff
  have hcl1b : ClosedSet g g.processes (detectWF g order).2.1 :=
    fun p hpp => hcl1 p ((hmemiff p).mpr hpp)
  have hsub1b : (detectWF g order).2.1 ⊆ g.processes :=
    fun x hx => (hmemiff x).mp (hsub1 hx)
  have hiff : ∀ x, x ∈ (detectWF g order).2.1 ↔
      x ∈ (detectWF g g.processes).2.1 := fun x =>
    ⟨fun hx => compSeq_subset_of_closed g g.processes hA hnd2 hcl2
        hcs1 hnd1 hsub1b hx,
     fun hx => compSeq_subset_of_closed g g.processes hA hnd1 hcl1b
        hcs2 hnd2 hsub2 hx⟩
  have hwmap : wkMap g (detectWF g order).2.1
      = wkMap g (detectWF g g.processes).2.1 := by
    simp only [wkMap]
    apply List.map_congr_left
    intro e _
    rw [wkOf_eq_of_set_eq g hnd1 hnd2 hiff e.1]
  have hwork : (detectWF g order).1 = (detectWF g g.processes).1 := by
    rw [hw1, hw2, hwmap]
  have hdl : ∀ p, (p ∈ order.filter
        (fun q => q ∉ (detectWF g order).2.1)) ↔
      (p ∈ g.processes.filter
        (fun q => q ∉ (detectWF g g.processes).2.1)) := by
    intro p
    simp [List.mem_filter, hmemiff p, hiff p]
  have hentry : ∀ p ∈ order, p ∉ (detectWF g order).2.1 →
      (reqKeysOf g (detectWF g order).2.2 p).filter
          (fun r => decide (workAt (detectWF g order).1 r < g.reqCount p r))
        = (reqKeysOf g (detectWF g g.processes).2.2 p).filter
          (fun r => decide (workAt (detectWF g g.processes).1 r
            < g.reqCount p r)) := by
    intro p hpo hpF
    have ht1 := detectWF_touch g order hord hres hA p hpo hpF
    have ht2 := detectWF_touch g g.processes hp hres hA p
      ((hmemiff p).mp hpo) (fun hx => hpF ((hiff p).mpr hx))
    rw [ht1, ht2, hwmap, hwork]
  refine ⟨decide (0 < (order.filter
      (fun p => p ∉ (detectWF g order).2.1)).length),
    order.filter (fun p => p ∉ (detectWF g order).2.1),
    (order.filter (fun p => p ∉ (detectWF g order).2.1)).map
      (fun p => (p, (reqKeysOf g (detectWF g order).2.2 p).filter
        fun r => decide (workAt (detectWF g order).1 r < g.reqCount p r))),
    decide (0 < (g.processes.filter
      (fun p => p ∉ (detectWF g g.processes).2.1)).length),
    g.processes.filter (fun p => p ∉ (detectWF g g.processes).2.1),
    (g.processes.filter (fun p => p ∉ (detectWF g g.processes).2.1)).map
      (fun p => (p, (reqKeysOf g (detectWF g g.processes).2.2 p).filter
        fun r => decide (workAt (detectWF g g.processes).1 r
          < g.reqCount p r))),
    ?_, ?_, ?_, hdl, ?_⟩
  · rw [detect_deadlock, if_pos hk]
  · rw [detect_deadlock, if_pos hk]
  · apply decide_eq_decide.mpr
    constructor
    · intro h
      rcases List.length_pos_iff_exists_mem.mp h with ⟨a, ha⟩
      exact List.length_pos_iff_exists_mem.mpr ⟨a, (hdl a).mp ha⟩
    · intro h
      rcases List.length_pos_iff_exists_mem.mp h with ⟨a, ha⟩
      exact List.length_pos_iff_exists_mem.mpr ⟨a, (hdl a).mpr ha⟩
  · intro x
    constructor
    · intro hx
      rcases List.mem_map.mp hx with ⟨q, hq, rfl⟩
      have hq2 : q ∈ order ∧ q ∉ (detectWF g order).2.1 := by
        simpa [List.mem_filter] using hq
      apply List.mem_map.mpr
      refine ⟨q, (hdl q).mp hq, ?_⟩
      rw [hentry q hq2.1 hq2.2]
    · intro hx
      rcases List.mem_map.mp hx with ⟨q, hq, rfl⟩
      have hq1 : q ∈ order.filter
          (fun x => x ∉ (detectWF g order).2.1) := (hdl q).mpr hq
      have hq2 : q ∈ order ∧ q ∉ (detectWF g order).2.1 := by
        simpa [List.mem_filter] using hq1
      apply List.mem_map.mpr
      refine ⟨q, hq1, ?_⟩
      rw [hentry q hq2.1 hq2.2]

/-- Witness for C7: detection over the reversed iteration order of the
two-process circular-wait store agrees with the stored order. -/
theorem claim_C7_witness :
    ∃ isDl dl inv isDl2 dl2 inv2,
      detect_deadlock cycleStore ["P2", "P1"] = some (isDl, dl, inv) ∧
      detect_deadlock cycleStore cycleStore.processes
        = some (isDl2, dl2, inv2) ∧
      isDl = isDl2 ∧ (∀ p, p ∈ dl ↔ p ∈ dl2) ∧
      ∀ x, x ∈ inv ↔ x ∈ inv2 :=
  claim_C7_order_independence cycleStore ["P2", "P1"] (by decide)
    (by decide) (by decide)
    (allocCount_nonneg_of_entries (by decide)) (by decide)

end DeadlockDetect
